import Mathlib

/-!
Verification development for the scadufax reification and drift-detection
engine.  The definitions below are shallow embeddings of the Go source:

* template parsing/execution models the subset of Go `text/template`
  exercised by the repository (literal text, dotted context lookups with
  `missingkey=error`, and the `secret` function applied to a string
  literal), as used by `renderAndWrite` (src/pkg/processor/processor.go).
* the filesystem is modelled as an association list from relative paths to
  files (content and permission bits); directory walks are list traversals
  in list order (matching `filepath.WalkDir`'s deterministic order).
* `Reify`, `ReifyFile`, `GetSecretFn` model src/pkg/processor/processor.go;
  `compareDirs`/`isIgnored` model the check command; `getDiffs`, the wait
  loop and the apply step model src/cmd/scadu/update.go; the list command
  walks model src/cmd/scadu/list.go; `copyFile` models src/cmd/scadu/add.go.
-/

namespace Scadufax

instance {ε α : Type} [DecidableEq ε] [DecidableEq α] : DecidableEq (Except ε α) :=
  fun x y =>
    match x, y with
    | .ok a, .ok b =>
        if h : a = b then isTrue (by rw [h])
        else isFalse (fun hc => h (Except.ok.inj hc))
    | .error a, .error b =>
        if h : a = b then isTrue (by rw [h])
        else isFalse (fun hc => h (Except.error.inj hc))
    | .ok _, .error _ => isFalse nofun
    | .error _, .ok _ => isFalse nofun

/-! ## Template data model -/

/-- Template error taxonomy: Go `text/template` reports parse errors from
`Parse` and execution errors from `Execute`; `renderAndWrite` wraps them in
distinct messages ("failed to parse template" / "failed to execute
template"). -/
inductive TemplateError where
  | parse (msg : String)
  | execute (msg : String)
deriving DecidableEq

/-- Parsed template node: literal text, a dotted context lookup
(`\x7b\x7b .a.b \x7d\x7d`), or a call of the `secret` template function on a
string literal (`\x7b\x7b "KEY" | secret \x7d\x7d` or
`\x7b\x7b secret "KEY" \x7d\x7d`). These are the constructs the repository's
templates use. -/
inductive Node where
  | lit (s : List Char)
  | field (path : List String)
  | secretCall (key : String)
deriving DecidableEq

/-- Context: the viper settings passed as `data` to `Reify`.  Modelled as a
flat mapping from dotted key paths to scalar string values (the spec's
"mapping from dotted key paths to scalar/structured values"). -/
abbrev Ctx := List (List String × String)

/-- Secret resolver as consumed by the renderer: Go type
`func(string) (string, error)`. -/
abbrev SecretFn := String → Except String String

def lookupCtx (ctx : Ctx) (ks : List String) : Option String :=
  match ctx with
  | [] => none
  | (ks', v) :: rest => if ks' = ks then some v else lookupCtx rest ks

/-! ## Template lexer/parser

Models the lexing of an action (Go scans from the `\x7b\x7b` delimiter to
the matching `\x7d\x7d`, treating quoted strings atomically) and the parsing
of the action bodies used in this repository.  The top-level scanner uses
explicit fuel so that it is structurally recursive and hence evaluates
inside the kernel; `parseT` instantiates the fuel with a sufficient bound. -/

/-- Scans the remainder of an action for the closing `\x7d\x7d` delimiter,
returning (body, rest-after-close).  The flag tracks whether the scan is
inside a quoted string, where `\x7d\x7d` does not terminate the action and
backslash escapes are skipped. -/
def splitAtClose : Bool → List Char → Option (List Char × List Char)
  | false, '}' :: '}' :: r => some ([], r)
  | false, '"' :: r =>
      (splitAtClose true r).map (fun p => ('"' :: p.1, p.2))
  | false, c :: r =>
      (splitAtClose false r).map (fun p => (c :: p.1, p.2))
  | true, '"' :: r =>
      (splitAtClose false r).map (fun p => ('"' :: p.1, p.2))
  | true, '\\' :: c :: r =>
      (splitAtClose true r).map (fun p => ('\\' :: c :: p.1, p.2))
  | true, c :: r =>
      (splitAtClose true r).map (fun p => (c :: p.1, p.2))
  | _, [] => none

def isIdentChar (c : Char) : Bool :=
  c.isAlpha || c.isDigit || c = '_'

def skipSpaces (cs : List Char) : List Char :=
  cs.dropWhile (fun c => c = ' ' || c = '\t' || c = '\n' || c = '\r')

/-- Parses a quoted Go string literal after the opening quote, unescaping
the escapes `%q` produces for the keys seen here; returns the decoded
string and the rest after the closing quote. -/
def parseQuoted : List Char → Option (String × List Char)
  | '"' :: r => some ("", r)
  | '\\' :: c :: r =>
      match parseQuoted r with
      | none => none
      | some (s, t) =>
          match c with
          | 'n' => some ("\n" ++ s, t)
          | 't' => some ("\t" ++ s, t)
          | 'r' => some ("\r" ++ s, t)
          | '\\' => some ("\\" ++ s, t)
          | '"' => some ("\"" ++ s, t)
          | _ => none
  | c :: r =>
      match parseQuoted r with
      | none => none
      | some (s, t) => some (c.toString ++ s, t)
  | [] => none

/-- Takes a nonempty run of identifier characters. -/
def parseIdent (cs : List Char) : Option (String × List Char) :=
  let run := cs.takeWhile isIdentChar
  if run = [] then none else some (run.asString, cs.dropWhile isIdentChar)

/-- Parses a dotted field chain `.a.b.c` (fuelled to stay structurally
recursive; called with fuel larger than the input length). -/
def parseChainF : Nat → List Char → Option (List String × List Char)
  | 0, _ => none
  | fuel + 1, '.' :: r =>
      match parseIdent r with
      | none => none
      | some (name, r') =>
          match r' with
          | '.' :: _ =>
              match parseChainF fuel r' with
              | none => none
              | some (names, r'') => some (name :: names, r'')
          | _ => some ([name], r')
  | _ + 1, _ => none

/-- Parses one action once surrounding spaces are skipped: either a dotted
context lookup, a string literal piped into `secret`, or `secret` applied
to a string literal. -/
def parseActionCore : List Char → Except String Node
  | '.' :: tail =>
      match parseChainF (tail.length + 2) ('.' :: tail) with
      | none => .error "bad field chain in action"
      | some (names, r) =>
          if skipSpaces r = [] then .ok (Node.field names)
          else .error "unexpected text after field"
  | '"' :: r =>
      match parseQuoted r with
      | none => .error "bad string literal in action"
      | some (key, r') =>
          match skipSpaces r' with
          | '|' :: r'' =>
              match parseIdent (skipSpaces r'') with
              | some (fn, r''') =>
                  if fn = "secret" && skipSpaces r''' = [] then
                    .ok (Node.secretCall key)
                  else .error "unknown pipeline function"
              | none => .error "missing pipeline function"
          | _ => .error "unexpected text after string literal"
  | b =>
      match parseIdent b with
      | some (fn, r) =>
          if fn = "secret" then
            match skipSpaces r with
            | '"' :: r' =>
                match parseQuoted r' with
                | none => .error "bad string literal in action"
                | some (key, r'') =>
                    if skipSpaces r'' = [] then .ok (Node.secretCall key)
                    else .error "unexpected text after secret call"
            | _ => .error "secret needs a string literal argument"
          else .error "unknown action"
      | none => .error "unrecognized character in action"

/-- Parses the body of one action (the text strictly between `\x7b\x7b` and
`\x7d\x7d`). -/
def parseActionBody (body : List Char) : Except String Node :=
  parseActionCore (skipSpaces body)

/-- Prepends one literal character to a node list, merging with a leading
literal node (literal text between actions forms maximal runs, as in the Go
lexer). -/
def consLit (c : Char) : List Node → List Node
  | Node.lit s :: rest => Node.lit (c :: s) :: rest
  | ns => Node.lit [c] :: ns

/-- Template scanner: literal text up to `\x7b\x7b`, then one action through
its closing `\x7d\x7d`, and so on.  Fuelled for structural recursion. -/
def parseTF : Nat → List Char → Except String (List Node)
  | 0, _ => .error "template scanner out of fuel"
  | fuel + 1, cs =>
      match cs with
      | [] => .ok []
      | '{' :: '{' :: rest =>
          match splitAtClose false rest with
          | none => .error "unclosed action"
          | some (body, after) =>
              match parseActionBody body with
              | .error e => .error e
              | .ok node => (parseTF fuel after).map (fun ns => node :: ns)
      | c :: rest => (parseTF fuel rest).map (consLit c)

/-- Parses a whole template, models `template.Parse`. -/
def parseT (cs : List Char) : Except String (List Node) :=
  parseTF (cs.length + 1) cs

/-! ## Template execution -/

/-- Executes a node list against the context and the secret resolver,
halting at the first error; models `template.Execute` with
`missingkey=error` (an absent context key is a hard failure, never an empty
string). -/
def execNodes (ns : List Node) (ctx : Ctx) (sf : SecretFn) :
    Except String (List Char) :=
  match ns with
  | [] => .ok []
  | Node.lit s :: rest => (execNodes rest ctx sf).map (fun out => s ++ out)
  | Node.field ks :: rest =>
      match lookupCtx ctx ks with
      | none => .error ("map has no entry for key " ++ String.intercalate "." ks)
      | some v => (execNodes rest ctx sf).map (fun out => v.toList ++ out)
  | Node.secretCall k :: rest =>
      match sf k with
      | .error e => .error e
      | .ok v => (execNodes rest ctx sf).map (fun out => v.toList ++ out)

/-- Renders one file content: parse then execute, with the error kinds
`renderAndWrite` distinguishes (processor.go:80 and processor.go:93). -/
def renderFile (content : String) (ctx : Ctx) (sf : SecretFn) :
    Except TemplateError String :=
  match parseT content.toList with
  | .error e => .error (TemplateError.parse e)
  | .ok ns =>
      match execNodes ns ctx sf with
      | .error e => .error (TemplateError.execute e)
      | .ok out => .ok out.asString

/-! ## The pass-through secret resolver

When `--secret` is not passed, the reify command installs a resolver that
re-quotes the key (src/unnamed/part_001:59 and src/unnamed/part_003:279):
`fmt.Sprintf("\x7b\x7b %q | secret \x7d\x7d", key)`. -/

/-- Escaping performed by Go's `%q` verb for the characters relevant here
(quote, backslash and common control characters; other characters are
passed through). -/
def escChar (c : Char) : List Char :=
  if c = '"' then ['\\', '"']
  else if c = '\\' then ['\\', '\\']
  else if c = '\n' then ['\\', 'n']
  else if c = '\t' then ['\\', 't']
  else if c = '\r' then ['\\', 'r']
  else [c]

def escape (cs : List Char) : List Char := cs.flatMap escChar

/-- Character form of `fmt.Sprintf("\x7b\x7b %q | secret \x7d\x7d", key)`. -/
def canonChars (key : String) : List Char :=
  ['{', '{', ' ', '"'] ++ escape key.toList ++
    ['"', ' ', '|', ' ', 's', 'e', 'c', 'r', 'e', 't', ' ', '}', '}']

/-- The pass-through resolver used when secrets are disabled. -/
def passThroughFn : SecretFn := fun key => .ok (canonChars key).asString

/-- Characters of the canonical placeholder from the closing quote through
the trailing space before `\x7d\x7d`. -/
def secretTail : List Char := ['"', ' ', '|', ' ', 's', 'e', 'c', 'r', 'e', 't', ' ']

/-- Body of a canonical secret action: what stands between `\x7b\x7b` and
`\x7d\x7d` in the pass-through resolver's output. -/
def bodyCore (k : String) : List Char := [' ', '"'] ++ escape k.toList ++ secretTail

/-- True when no node of the template is a context lookup. -/
def fieldFree (ns : List Node) : Bool :=
  ns.all (fun n =>
    match n with
    | Node.field _ => false
    | _ => true)

/-- Serialization of a field-free template with each secret placeholder in
the canonical re-quoted form the pass-through resolver emits. -/
def serializePt (ns : List Node) : List Char :=
  ns.flatMap (fun n =>
    match n with
    | Node.lit s => s
    | Node.secretCall k => canonChars k
    | Node.field _ => [])

/-- True when the character list contains no `\x7b\x7b` action opener. -/
def noOpenB : List Char → Bool
  | '{' :: '{' :: _ => false
  | _ :: r => noOpenB r
  | [] => true

/-- True when the string contains no opening brace at all. -/
def noBrace (s : String) : Bool := s.toList.all (fun c => c ≠ '{')

/-- True when every context value is free of opening braces, so that
substituted values can never create new template actions. -/
def valsOK (ctx : Ctx) : Bool := ctx.all (fun pr => noBrace pr.2)

/-- Shape invariant of parsed node lists: literal segments contain no
action opener, and a literal segment followed by another node does not end
in an opening brace (both are guaranteed by the maximal-munch scanner). -/
def goodNodes : List Node → Bool
  | [] => true
  | Node.lit s :: rest =>
      noOpenB s && (rest.isEmpty || s.getLast? ≠ some '{') && goodNodes rest
  | _ :: rest => goodNodes rest

/-! ## Filesystem model

A tree is an association list from relative paths to files; a file carries
its content and its permission bits.  `filepath.WalkDir` visits files in a
deterministic order, modelled as the list order. -/

structure File where
  content : String
  perm : Nat
deriving DecidableEq

abbrev FSys := List (String × File)

def lookupFS (fs : FSys) (p : String) : Option File :=
  match fs with
  | [] => none
  | (q, f) :: rest => if q = p then some f else lookupFS rest p

/-- Overwrites (or creates) the file at `p`. -/
def setFile (fs : FSys) (p : String) (f : File) : FSys :=
  match fs with
  | [] => [(p, f)]
  | (q, g) :: rest => if q = p then (p, f) :: rest else (q, g) :: setFile rest p f

/-- Splits a relative path into its `/`-separated components. -/
def pathComponents : List Char → List (List Char)
  | [] => [[]]
  | '/' :: r => [] :: pathComponents r
  | c :: r =>
      match pathComponents r with
      | comp :: rest => (c :: comp) :: rest
      | [] => [[c]]

/-- Walks skip the version-control metadata directory: `WalkDir` callbacks
return `filepath.SkipDir` for any directory named `.git`, so files below
one are never visited. -/
def eligible (p : String) : Bool :=
  ¬ (pathComponents p.toList).any (fun comp => comp = ['.', 'g', 'i', 't'])

/-! ## Reification engine (src/pkg/processor/processor.go) -/

/-- Message produced by `renderAndWrite` for a failing file: the error wraps
the offending name (the walked path). -/
def renderErrMsg (path : String) : TemplateError → String
  | TemplateError.parse m => "failed to parse template " ++ path ++ ": " ++ m
  | TemplateError.execute m => "failed to execute template " ++ path ++ ": " ++ m

/-- Permission used by `renderAndWrite` when overwriting `destPath`:
`os.FileMode(0644)` unless the destination already exists, in which case the
existing mode is kept (processor.go:97-103). -/
def writeFileModel (dest : Option File) (out : String) : File :=
  match dest with
  | some g => { content := out, perm := g.perm }
  | none => { content := out, perm := 0o644 }

/-- Models `walkAndProcess` (processor.go:47): walk the tree in order,
render each eligible file, and either discard the output (dry run) or
overwrite the file in place.  The first failure aborts the walk; in the
non-dry pass, files already processed stay overwritten.  Returns the
resulting tree and the error, if any. -/
def walkAndProcess (fs : FSys) (ctx : Ctx) (sf : SecretFn) (dryRun : Bool) :
    FSys × Option String :=
  match fs with
  | [] => ([], none)
  | (p, f) :: rest =>
      if eligible p then
        match renderFile f.content ctx sf with
        | .error e => ((p, f) :: rest, some (renderErrMsg p e))
        | .ok out =>
            let f' := if dryRun then f else { content := out, perm := f.perm }
            let r := walkAndProcess rest ctx sf dryRun
            ((p, f') :: r.1, r.2)
      else
        let r := walkAndProcess rest ctx sf dryRun
        ((p, f) :: r.1, r.2)

/-- Models `processor.Reify` (processor.go:17): a validation pass over the
whole tree first; any failure aborts with zero mutation; only if it
succeeds entirely does the execution pass overwrite files. -/
def Reify (fs : FSys) (ctx : Ctx) (sf : SecretFn) (dryRun : Bool) :
    FSys × Option String :=
  match walkAndProcess fs ctx sf true with
  | (_, some e) => (fs, some ("dry-run failed: " ++ e))
  | (_, none) =>
      if dryRun then (fs, none)
      else walkAndProcess fs ctx sf false

/-- Models `processor.ReifyFile` (processor.go:33): render `src` and write
the output over `dest` (absent destination means the file does not exist
yet).  Parent-directory creation is a no-op in the flat path model. -/
def ReifyFile (src : File) (dest : Option File) (ctx : Ctx) (sf : SecretFn) :
    Except TemplateError File :=
  match renderFile src.content ctx sf with
  | .error e => .error e
  | .ok out => .ok (writeFileModel dest out)

/-! ## Secret store resolver (processor.go:129, `GetSecretFn`) -/

/-- Error taxonomy of the secret resolver (spec §7:
`SecretError{StoreUnreadable, KeyNotFound}`). -/
inductive SecretErr where
  | storeUnreadable (msg : String)
  | keyNotFound (key : String)
deriving DecidableEq

/-- Result of `godotenv.Read` on the `.env` store file: the file may be
absent (`os.IsNotExist` holds of the error), unreadable for another reason,
or present with parsed entries. -/
inductive StoreFile where
  | missing
  | unreadable
  | present (entries : List (String × String))
deriving DecidableEq

def lookupStore (entries : List (String × String)) (k : String) : Option String :=
  match entries with
  | [] => none
  | (k', v) :: rest => if k' = k then some v else lookupStore rest k

/-- Lookup closure returned by `GetSecretFn` (processor.go:146): a missing
key is an error whether or not the store was required — both branches
return the same "not found" failure. -/
def secretLookupFn (entries : List (String × String)) :
    String → Except SecretErr String :=
  fun key =>
    match lookupStore entries key with
    | some v => .ok v
    | none => .error (SecretErr.keyNotFound key)

/-- Models `processor.GetSecretFn` (processor.go:129): with
`required = true` any read failure (including absence) is fatal at
construction; with `required = false` absence is tolerated (empty store)
but any other read failure is still fatal. -/
def GetSecretFn (store : StoreFile) (required : Bool) :
    Except SecretErr (String → Except SecretErr String) :=
  if required then
    match store with
    | StoreFile.present m => .ok (secretLookupFn m)
    | _ => .error (SecretErr.storeUnreadable "failed to read .env")
  else
    match store with
    | StoreFile.present m => .ok (secretLookupFn m)
    | StoreFile.missing => .ok (secretLookupFn [])
    | StoreFile.unreadable => .error (SecretErr.storeUnreadable "failed to read .env")

/-- Observation of `GetSecretFn`'s construction outcome: the error when
construction fails, `none` when a resolver is returned. -/
def constructErr (store : StoreFile) (required : Bool) : Option SecretErr :=
  match GetSecretFn store required with
  | .error e => some e
  | .ok _ => none

/-- Observation of one end-to-end resolution: construct the resolver, then
resolve `key` with it (construction failure propagates). -/
def resolveVia (store : StoreFile) (required : Bool) (key : String) :
    Except SecretErr String :=
  match GetSecretFn store required with
  | .error e => .error e
  | .ok fn => fn key

/-! ## Glob matching and ignore patterns (src/unnamed/part_003:408) -/

/-- Membership of a character in a `[...]` class. -/
def inClass (c : Char) (neg : Bool) (ranges : List (Char × Char)) : Bool :=
  let m := ranges.any (fun r => r.1 ≤ c && c ≤ r.2)
  if neg then !m else m

/-- Reads one end of a class range: a backslash escapes the next character;
a bare `-` or `]` here is a malformed pattern (Go's `getEsc`). -/
def getEsc : List Char → Option (Char × List Char)
  | '\\' :: c :: r => some (c, r)
  | '-' :: _ => none
  | ']' :: _ => none
  | c :: r => some (c, r)
  | [] => none

/-- Parses the ranges of a character class up to the closing `]`: each is
`lo` or `lo-hi` via `getEsc`; at least one range is required before `]`.
Returns the negation flag, the ranges and the rest of the pattern; `none`
on a malformed class. -/
def parseClassBody : Nat → Bool → List (Char × Char) → List Char →
    Option (Bool × List (Char × Char) × List Char)
  | _, neg, acc, ']' :: r => if acc ≠ [] then some (neg, acc.reverse, r) else none
  | 0, _, _, _ => none
  | fuel + 1, neg, acc, cs =>
      match getEsc cs with
      | none => none
      | some (lo, r) =>
          match r with
          | '-' :: r' =>
              match getEsc r' with
              | none => none
              | some (hi, r'') => parseClassBody fuel neg ((lo, hi) :: acc) r''
          | _ => parseClassBody fuel neg ((lo, lo) :: acc) r

/-- Parses a character class after the opening `[`: an optional leading `^`
negates the class, then `parseClassBody` reads the ranges. -/
def parseClass (cs : List Char) : Option (Bool × List (Char × Char) × List Char) :=
  match cs with
  | '^' :: r => parseClassBody (r.length + 1) true [] r
  | _ => parseClassBody (cs.length + 1) false [] cs

/-- Models `path/filepath.Match`, the matcher `isIgnored` applies: `*`
matches any run of non-separator characters, `?` one non-separator
character, `[...]` a character class, backslash escapes the next character;
a malformed pattern never matches (`isIgnored` discards `Match`'s error).
Fuelled for structural recursion; fuel bounds pattern+name length. -/
def goMatchF (fuel : Nat) (ps ns : List Char) : Bool :=
  match fuel with
  | 0 => false
  | fuel + 1 =>
      match ps, ns with
      | [], [] => true
      | [], _ :: _ => false
      | '*' :: ps', _ =>
          goMatchF fuel ps' ns ||
            (match ns with
             | [] => false
             | c :: ns' => c ≠ '/' && goMatchF fuel ('*' :: ps') ns')
      | '?' :: ps', c :: ns' => c ≠ '/' && goMatchF fuel ps' ns'
      | '?' :: _, [] => false
      | '[' :: ps', c :: ns' =>
          match parseClass ps' with
          | some (neg, ranges, rest) => inClass c neg ranges && goMatchF fuel rest ns'
          | none => false
      | '[' :: _, [] => false
      | '\\' :: p :: ps', c :: ns' => p = c && goMatchF fuel ps' ns'
      | '\\' :: _, [] => false
      | ['\\'], _ => false
      | p :: ps', c :: ns' => p = c && goMatchF fuel ps' ns'
      | _ :: _, [] => false

def goMatch (pattern name : String) : Bool :=
  goMatchF (pattern.length + name.length + 1) pattern.toList name.toList

/-- Models `isIgnored` (src/unnamed/part_003:408): the relative path is
matched against each pattern with `filepath.Match`; any match ignores the
path (match errors are discarded, i.e. count as no match). -/
def isIgnored (relPath : String) (patterns : List String) : Bool :=
  patterns.any (fun p => goMatch p relPath)

/-! ## Diff engine (src/unnamed/part_003:323, `compareDirs`) -/

inductive Classif where
  | New
  | Modified
  | Deleted
deriving DecidableEq

/-- Models `areFilesDifferent` (src/unnamed/part_003:430); in the pure tree
model both reads succeed, so this is content inequality (the code treats a
read failure as "different", conservatively). -/
def areFilesDifferent (a b : File) : Bool := a.content ≠ b.content

/-- Models `compareDirs` (src/unnamed/part_003:323): walk the source tree
(skipping `.git` and ignored paths); a path absent under the target is New,
a path with different bytes is Modified.  If `checkAll` is set, walk the
target tree with the same skip rules and report paths absent under the
source as Deleted.  Source-walk entries precede target-walk entries. -/
def compareDirs (source target : FSys) (ignores : List String)
    (checkAll : Bool) : List (String × Classif) :=
  let srcEntries := source.filterMap (fun e =>
    if eligible e.1 && !isIgnored e.1 ignores then
      match lookupFS target e.1 with
      | none => some (e.1, Classif.New)
      | some g => if areFilesDifferent e.2 g then some (e.1, Classif.Modified) else none
    else none)
  let delEntries :=
    if checkAll then
      target.filterMap (fun e =>
        if eligible e.1 && !isIgnored e.1 ignores then
          match lookupFS source e.1 with
          | none => some (e.1, Classif.Deleted)
          | some _ => none
        else none)
    else []
  srcEntries ++ delEntries

/-- Models `getDiffs` (src/cmd/scadu/update.go:142): same source walk as
`compareDirs`, collecting the relative paths that are New or Modified (no
deletions). -/
def getDiffs (source target : FSys) (ignores : List String) : List String :=
  source.filterMap (fun e =>
    if eligible e.1 && !isIgnored e.1 ignores then
      match lookupFS target e.1 with
      | none => some e.1
      | some g => if areFilesDifferent e.2 g then some e.1 else none
    else none)

/-! ## List command (src/cmd/scadu/list.go) -/

/-- Models the main-branch walk of the list command (list.go:40-69): every
eligible repo file is reported, flagged MISSING (`true`) when absent from
the home tree.  The code deliberately does not apply the ignore patterns to
this walk (list.go:56-59), so `ignores` is unused. -/
def listMain (repo home : FSys) (ignores : List String) :
    List (String × Bool) :=
  let _ := ignores
  repo.filterMap (fun e =>
    if eligible e.1 then
      some (e.1, (lookupFS home e.1).isNone)
    else none)

/-- Models the `--all` walk of the list command (list.go:76-102): eligible,
non-ignored home files absent from the repo are reported UNMANAGED. -/
def listUnmanaged (repo home : FSys) (ignores : List String) : List String :=
  home.filterMap (fun e =>
    if eligible e.1 && !isIgnored e.1 ignores then
      if (lookupFS repo e.1).isNone then some e.1 else none
    else none)

/-! ## Update command (src/cmd/scadu/update.go) -/

/-- Models `copyFile` (src/cmd/scadu/add.go:113) on the tree model: the
destination receives the source's content, and its mode is set to the
source's mode (`os.Chmod` after the copy). -/
def copyFileFS (fork home : FSys) (rel : String) : FSys :=
  match lookupFS fork rel with
  | none => home
  | some f => setFile home rel f

/-- Models the apply step of the update command (update.go:121-129): copy
each diff entry from the fork tree to the home tree in diff-report order;
a copy failure (the `copyFails` oracle) stops the loop with an error naming
the failing entry, leaving earlier copies in place and later entries
unapplied. -/
def applyDiffs (fork home : FSys) (diffs : List String)
    (copyFails : String → Bool) : FSys × Option String :=
  match diffs with
  | [] => (home, none)
  | rel :: rest =>
      if copyFails rel then (home, some ("failed to update " ++ rel))
      else applyDiffs fork (copyFileFS fork home rel) rest copyFails

/-- Models the convergence-wait loop (update.go:69-90).  `marker j` is the
fork branch's sync marker as read after `j` pull attempts (the pull before
the loop is attempt 1; each further iteration sleeps 5s and re-pulls, and a
pull failure is only a warning).  The Go loop is unbounded; `fuel` bounds
the modelled iteration count, and `none` means the loop is still running
after `fuel` iterations.  On termination the result is the index of the
pull attempt whose marker matched, which equals the number of loop
iterations executed. -/
def waitLoop (marker : Nat → String) (mainID : String) :
    Nat → Nat → Option Nat
  | 0, _ => none
  | fuel + 1, i => if marker i = mainID then some i else waitLoop marker mainID fuel (i + 1)

/-- Models the guard around the loop (update.go:69): the loop runs only if
the `--wait` flag is set and the main branch's `SCADUFAX_ID` marker is
non-empty; otherwise zero iterations happen. -/
def updateWaitPhase (wait : Bool) (mainID : String) (marker : Nat → String)
    (fuel : Nat) : Option Nat :=
  if wait && mainID ≠ "" then waitLoop marker mainID fuel 1
  else some 0

/-! # Theorems -/

/-! ## C2: diff correctness on the spec's concrete trees -/

/-- C2 counterexample: comparing B (source) against A (target) with
deletions excluded does not yield exactly \x7bb: Modified\x7d — the
source-walk also reports c as New (New entries are always reported; only
Deleted entries depend on the flag). -/
theorem compareDirs_c_new_counterexample :
    compareDirs
        [("a", ⟨"1", 420⟩), ("b", ⟨"3", 420⟩), ("c", ⟨"4", 420⟩)]
        [("a", ⟨"1", 420⟩), ("b", ⟨"2", 420⟩)] [] false
      = [("b", Classif.Modified), ("c", Classif.New)] ∧
    compareDirs
        [("a", ⟨"1", 420⟩), ("b", ⟨"3", 420⟩), ("c", ⟨"4", 420⟩)]
        [("a", ⟨"1", 420⟩), ("b", ⟨"2", 420⟩)] [] false
      ≠ [("b", Classif.Modified)] := by
  decide

/-- C2 (amended): for trees A=\x7ba:"1", b:"2"\x7d and
B=\x7ba:"1", b:"3", c:"4"\x7d, comparing A against B with deletions
included yields exactly \x7bb: Modified, c: Deleted\x7d, and comparing B
against A with deletions excluded yields exactly
\x7bb: Modified, c: New\x7d. -/
theorem compareDirs_concrete_trees :
    compareDirs
        [("a", ⟨"1", 420⟩), ("b", ⟨"2", 420⟩)]
        [("a", ⟨"1", 420⟩), ("b", ⟨"3", 420⟩), ("c", ⟨"4", 420⟩)] [] true
      = [("b", Classif.Modified), ("c", Classif.Deleted)] ∧
    compareDirs
        [("a", ⟨"1", 420⟩), ("b", ⟨"3", 420⟩), ("c", ⟨"4", 420⟩)]
        [("a", ⟨"1", 420⟩), ("b", ⟨"2", 420⟩)] [] false
      = [("b", Classif.Modified), ("c", Classif.New)] := by
  decide

/-! ## C4: secret resolution strictness -/

/-- C4: with strict=true a missing or unreadable store fails construction
with a store-unreadable error and a key absent from a present store
resolves to a key-not-found error; with strict=false a missing store is
tolerated at construction, yet resolving an absent key still fails with a
key-not-found error. -/
theorem getSecretFn_strictness (m : List (String × String)) (k : String)
    (habs : lookupStore m k = none) :
    constructErr StoreFile.missing true
        = some (SecretErr.storeUnreadable "failed to read .env")
  ∧ constructErr StoreFile.unreadable true
        = some (SecretErr.storeUnreadable "failed to read .env")
  ∧ resolveVia (StoreFile.present m) true k = .error (SecretErr.keyNotFound k)
  ∧ constructErr StoreFile.missing false = none
  ∧ resolveVia StoreFile.missing false k = .error (SecretErr.keyNotFound k) := by
  refine ⟨rfl, rfl, ?_, rfl, rfl⟩
  simp [resolveVia, GetSecretFn, secretLookupFn, habs]

/-- Witness for `getSecretFn_strictness` at a concrete store and key. -/
theorem getSecretFn_strictness_witness :
    lookupStore [("A", "1")] "B" = none ∧
    (constructErr StoreFile.missing true
        = some (SecretErr.storeUnreadable "failed to read .env")
  ∧ constructErr StoreFile.unreadable true
        = some (SecretErr.storeUnreadable "failed to read .env")
  ∧ resolveVia (StoreFile.present [("A", "1")]) true "B"
        = .error (SecretErr.keyNotFound "B")
  ∧ constructErr StoreFile.missing false = none
  ∧ resolveVia StoreFile.missing false "B"
        = .error (SecretErr.keyNotFound "B")) :=
  ⟨by decide, getSecretFn_strictness [("A", "1")] "B" (by decide)⟩

/-! ## C7: the convergence-wait loop -/

theorem waitLoop_terminates (marker : Nat → String) (mainID : String) :
    ∀ fuel i k, i ≤ k → k - i < fuel → marker k = mainID →
      (∀ j, i ≤ j → j < k → marker j ≠ mainID) →
      waitLoop marker mainID fuel i = some k := by
  intro fuel
  induction fuel with
  | zero => intro i k h1 h2 _ _; omega
  | succ f ih =>
      intro i k h1 h2 hk hfirst
      by_cases hi : marker i = mainID
      · have hik : i = k := by
          by_contra hne
          exact hfirst i le_rfl (by omega) hi
        subst hik
        simp only [waitLoop]
        rw [if_pos hi]
      · have hik : i < k := by
          rcases Nat.lt_or_ge i k with h | h
          · exact h
          · have : i = k := by omega
            exact absurd (this ▸ hk) hi
        simp only [waitLoop, if_neg hi]
        exact ih (i + 1) k (by omega) (by omega) hk
          (fun j hj1 hj2 => hfirst j (by omega) hj2)

theorem waitLoop_running (marker : Nat → String) (mainID : String) :
    ∀ fuel i, (∀ j, i ≤ j → j < i + fuel → marker j ≠ mainID) →
      waitLoop marker mainID fuel i = none := by
  intro fuel
  induction fuel with
  | zero => intro i _; rfl
  | succ f ih =>
      intro i h
      have hi : marker i ≠ mainID := h i le_rfl (by omega)
      simp only [waitLoop, if_neg hi]
      exact ih (i + 1) (fun j hj1 hj2 => h j (by omega) (by omega))

/-- C7: the waiting loop runs only when the wait flag is set and the main
marker is non-empty (otherwise zero iterations happen), and when the fork
marker first equals the main marker on pull attempt k the loop terminates
after exactly k iterations — with at least k iterations of fuel it ends
reporting attempt k, and with fewer it is still running. -/
theorem wait_loop_exact (wait : Bool) (mainID : String) (marker : Nat → String)
    (k : Nat) (hk : 1 ≤ k) (hmark : marker k = mainID)
    (hfirst : ∀ j, 1 ≤ j → j < k → marker j ≠ mainID) :
    (mainID ≠ "" → ∀ fuel, k ≤ fuel →
        updateWaitPhase true mainID marker fuel = some k)
  ∧ (mainID ≠ "" → ∀ fuel, fuel < k →
        updateWaitPhase true mainID marker fuel = none)
  ∧ (∀ fuel, ¬ (wait = true ∧ mainID ≠ "") →
        updateWaitPhase wait mainID marker fuel = some 0) := by
  refine ⟨?_, ?_, ?_⟩
  · intro hm fuel hfuel
    have hcond : (true && decide (mainID ≠ "")) = true := by simp [hm]
    unfold updateWaitPhase
    rw [hcond, if_pos rfl]
    exact waitLoop_terminates marker mainID fuel 1 k hk (by omega) hmark hfirst
  · intro hm fuel hfuel
    have hcond : (true && decide (mainID ≠ "")) = true := by simp [hm]
    unfold updateWaitPhase
    rw [hcond, if_pos rfl]
    exact waitLoop_running marker mainID fuel 1
      (fun j hj1 hj2 => hfirst j hj1 (by omega))
  · intro fuel hguard
    have hcond : (wait && decide (mainID ≠ "")) = false := by
      cases wait with
      | false => simp
      | true =>
          have hm : mainID = "" := by
            by_contra hne
            exact hguard ⟨rfl, hne⟩
          simp [hm]
    unfold updateWaitPhase
    rw [hcond, if_neg Bool.false_ne_true]

/-- Witness for `wait_loop_exact`: the fork marker first matches on pull
attempt 2. -/
theorem wait_loop_exact_witness :
    (1 ≤ 2 ∧ (fun j => if 2 ≤ j then "m" else "f") 2 = "m" ∧
      (∀ j, 1 ≤ j → j < 2 → (fun j => if 2 ≤ j then "m" else "f") j ≠ "m")) ∧
    ((("m" : String) ≠ "" → ∀ fuel, 2 ≤ fuel →
        updateWaitPhase true "m" (fun j => if 2 ≤ j then "m" else "f") fuel = some 2)
  ∧ (("m" : String) ≠ "" → ∀ fuel, fuel < 2 →
        updateWaitPhase true "m" (fun j => if 2 ≤ j then "m" else "f") fuel = none)
  ∧ (∀ fuel, ¬ (false = true ∧ ("m" : String) ≠ "") →
        updateWaitPhase false "m" (fun j => if 2 ≤ j then "m" else "f") fuel = some 0)) := by
  refine ⟨⟨by omega, by decide, ?_⟩, ?_⟩
  · intro j h1 h2
    have : j = 1 := by omega
    subst this
    decide
  · refine wait_loop_exact false "m" (fun j => if 2 ≤ j then "m" else "f") 2
      (by omega) (by decide) ?_
    intro j h1 h2
    have : j = 1 := by omega
    subst this
    decide

/-! ## C10: destination permissions of `ReifyFile` -/

/-- C10: a successful `ReifyFile` writes the destination with permission
bits 0644 when the destination does not already exist (regardless of the
source file's bits), and keeps the destination's prior bits when it does. -/
theorem reifyFile_dest_perms (src : File) (dest : Option File) (ctx : Ctx)
    (sf : SecretFn) (out : File) (h : ReifyFile src dest ctx sf = .ok out) :
    (dest = none → out.perm = 0o644)
  ∧ (∀ g, dest = some g → out.perm = g.perm) := by
  unfold ReifyFile at h
  rcases hr : renderFile src.content ctx sf with e | o
  · rw [hr] at h; cases h
  · rw [hr] at h
    constructor
    · intro hd
      subst hd
      cases h
      rfl
    · intro g hd
      subst hd
      cases h
      rfl

/-- Witness for `reifyFile_dest_perms`: a source with mode 0755 rendered to
a fresh destination gets mode 0644. -/
theorem reifyFile_dest_perms_witness :
    ReifyFile ⟨"x", 0o755⟩ none [] passThroughFn = .ok ⟨"x", 0o644⟩ ∧
    ((none : Option File) = none → (⟨"x", 0o644⟩ : File).perm = 0o644) :=
  ⟨by decide,
    (reifyFile_dest_perms ⟨"x", 0o755⟩ none [] passThroughFn ⟨"x", 0o644⟩
      (by decide)).1⟩

/-! ## C3: ignore-pattern enforcement -/

/-- C3 counterexample: the list command's main-branch walk reports every
repository file without consulting the ignore patterns (list.go:56-59), so
an ignored path present in the repository still appears in list output. -/
theorem ignored_in_list_counterexample :
    isIgnored "secret.txt" ["*.txt"] = true ∧
    ("secret.txt", true) ∈
      listMain [("secret.txt", ⟨"k", 420⟩)] [] ["*.txt"] := by
  decide

/-- C3 (amended): a path matching an ignore pattern never appears in diff
output — for every pair of trees (hence both directions of comparison),
with or without deletions, and for every classification — nor in the
update command's collected diffs, nor in the unmanaged listing; the list
command's main-branch listing, however, deliberately does not apply ignore
patterns. -/
theorem ignored_paths_filtered (p : String) (ignores : List String)
    (hig : isIgnored p ignores = true) :
    (∀ (source target : FSys) (all : Bool) (c : Classif),
        (p, c) ∉ compareDirs source target ignores all)
  ∧ (∀ source target : FSys, p ∉ getDiffs source target ignores)
  ∧ (∀ repo home : FSys, p ∉ listUnmanaged repo home ignores) := by
  have hguard : ∀ e1 : String, e1 = p →
      (eligible e1 && !isIgnored e1 ignores) = true → False := by
    intro e1 he hc
    rw [he, hig] at hc
    simp at hc
  refine ⟨?_, ?_, ?_⟩
  · intro source target all c h
    simp only [compareDirs, List.mem_append] at h
    rcases h with h | h
    · rcases List.mem_filterMap.mp h with ⟨e, _, hfe⟩
      by_cases hc : (eligible e.1 && !isIgnored e.1 ignores) = true
      · rw [if_pos hc] at hfe
        refine hguard e.1 ?_ hc
        rcases hl : lookupFS target e.1 with _ | g <;> rw [hl] at hfe <;>
          dsimp only at hfe
        · exact congrArg Prod.fst (Option.some.inj hfe)
        · by_cases hd : areFilesDifferent e.2 g = true
          · rw [if_pos hd] at hfe
            exact congrArg Prod.fst (Option.some.inj hfe)
          · rw [if_neg hd] at hfe
            cases hfe
      · rw [if_neg hc] at hfe
        cases hfe
    · by_cases hall : all = true
      · rw [if_pos hall] at h
        rcases List.mem_filterMap.mp h with ⟨e, _, hfe⟩
        by_cases hc : (eligible e.1 && !isIgnored e.1 ignores) = true
        · rw [if_pos hc] at hfe
          refine hguard e.1 ?_ hc
          rcases hl : lookupFS source e.1 with _ | g <;> rw [hl] at hfe <;>
            dsimp only at hfe
          · exact congrArg Prod.fst (Option.some.inj hfe)
          · cases hfe
        · rw [if_neg hc] at hfe
          cases hfe
      · rw [if_neg hall] at h
        cases h
  · intro source target h
    rcases List.mem_filterMap.mp h with ⟨e, _, hfe⟩
    by_cases hc : (eligible e.1 && !isIgnored e.1 ignores) = true
    · rw [if_pos hc] at hfe
      refine hguard e.1 ?_ hc
      rcases hl : lookupFS target e.1 with _ | g <;> rw [hl] at hfe <;>
        dsimp only at hfe
      · exact Option.some.inj hfe
      · by_cases hd : areFilesDifferent e.2 g = true
        · rw [if_pos hd] at hfe
          exact Option.some.inj hfe
        · rw [if_neg hd] at hfe
          cases hfe
    · rw [if_neg hc] at hfe
      cases hfe
  · intro repo home h
    rcases List.mem_filterMap.mp h with ⟨e, _, hfe⟩
    by_cases hc : (eligible e.1 && !isIgnored e.1 ignores) = true
    · rw [if_pos hc] at hfe
      refine hguard e.1 ?_ hc
      by_cases hn : (lookupFS repo e.1).isNone = true
      · rw [if_pos hn] at hfe
        exact Option.some.inj hfe
      · rw [if_neg hn] at hfe
        cases hfe
    · rw [if_neg hc] at hfe
      cases hfe

/-- Witness for `ignored_paths_filtered` at a concrete ignored path and
concrete trees. -/
theorem ignored_paths_filtered_witness :
    isIgnored "n.txt" ["*.txt"] = true ∧
    (("n.txt", Classif.New) ∉
        compareDirs [("n.txt", ⟨"1", 420⟩)] [] ["*.txt"] true
  ∧ "n.txt" ∉ getDiffs [("n.txt", ⟨"1", 420⟩)] [] ["*.txt"]
  ∧ "n.txt" ∉ listUnmanaged [] [("n.txt", ⟨"1", 420⟩)] ["*.txt"]) :=
  ⟨by decide,
    (ignored_paths_filtered "n.txt" ["*.txt"] (by decide)).1
      [("n.txt", ⟨"1", 420⟩)] [] true Classif.New,
    (ignored_paths_filtered "n.txt" ["*.txt"] (by decide)).2.1
      [("n.txt", ⟨"1", 420⟩)] [],
    (ignored_paths_filtered "n.txt" ["*.txt"] (by decide)).2.2
      [] [("n.txt", ⟨"1", 420⟩)]⟩

/-! ## C8: absent context keys are hard failures -/

theorem execNodes_error_of_absent (ctx : Ctx) (sf : SecretFn)
    (ks : List String) (habs : lookupCtx ctx ks = none) :
    ∀ ns : List Node, Node.field ks ∈ ns →
      ∃ m, execNodes ns ctx sf = .error m := by
  intro ns
  induction ns with
  | nil => intro h; cases h
  | cons n rest ih =>
      intro hmem
      rcases List.mem_cons.mp hmem with heq | hmem'
      · rw [← heq]
        exact ⟨"map has no entry for key " ++ String.intercalate "." ks,
          by simp [execNodes, habs]⟩
      · obtain ⟨m, hm⟩ := ih hmem'
        cases n with
        | lit s => exact ⟨m, by simp [execNodes, hm, Except.map]⟩
        | field ks' =>
            rcases hl : lookupCtx ctx ks' with _ | v
            · exact ⟨"map has no entry for key " ++ String.intercalate "." ks',
                by simp [execNodes, hl]⟩
            · exact ⟨m, by simp [execNodes, hl, hm, Except.map]⟩
        | secretCall k =>
            rcases hs : sf k with e | v
            · exact ⟨e, by simp [execNodes, hs]⟩
            · exact ⟨m, by simp [execNodes, hs, hm, Except.map]⟩

/-- C8: a template whose body looks up a context key absent from the
context fails to render with an execution-kind error and produces no
output; the absent key is never replaced by an empty string or default. -/
theorem absent_key_hard_failure (content : String) (ctx : Ctx)
    (sf : SecretFn) (ns : List Node) (ks : List String)
    (hp : parseT content.toList = .ok ns) (hmem : Node.field ks ∈ ns)
    (habs : lookupCtx ctx ks = none) :
    ∃ m, renderFile content ctx sf = .error (TemplateError.execute m) := by
  obtain ⟨m, hm⟩ := execNodes_error_of_absent ctx sf ks habs ns hmem
  refine ⟨m, ?_⟩
  unfold renderFile
  rw [hp]
  dsimp only
  rw [hm]

/-- Witness for `absent_key_hard_failure`: a lookup of `.miss` against an
empty context. -/
theorem absent_key_hard_failure_witness :
    (parseT "v = \x7b\x7b .miss \x7d\x7d".toList
        = .ok [Node.lit ['v', ' ', '=', ' '], Node.field ["miss"]]
      ∧ Node.field ["miss"]
          ∈ [Node.lit ['v', ' ', '=', ' '], Node.field ["miss"]]
      ∧ lookupCtx [] ["miss"] = none) ∧
    (∃ m, renderFile "v = \x7b\x7b .miss \x7d\x7d" [] passThroughFn
        = .error (TemplateError.execute m)) :=
  ⟨⟨by decide, by decide, rfl⟩,
    absent_key_hard_failure "v = \x7b\x7b .miss \x7d\x7d" [] passThroughFn
      [Node.lit ['v', ' ', '=', ' '], Node.field ["miss"]] ["miss"]
      (by decide) (by decide) rfl⟩

/-! ## C9: the apply step of the update command -/

theorem lookupFS_setFile_self (fs : FSys) (p : String) (f : File) :
    lookupFS (setFile fs p f) p = some f := by
  induction fs with
  | nil => simp [setFile, lookupFS]
  | cons e rest ih =>
      rcases e with ⟨q, g⟩
      by_cases hq : q = p
      · simp [setFile, hq, lookupFS]
      · simp [setFile, hq, lookupFS, ih]

theorem lookupFS_setFile_ne (fs : FSys) (p : String) (f : File) (q : String)
    (h : q ≠ p) : lookupFS (setFile fs p f) q = lookupFS fs q := by
  induction fs with
  | nil => simp [setFile, lookupFS, Ne.symm h]
  | cons e rest ih =>
      rcases e with ⟨q', g⟩
      by_cases hq : q' = p
      · subst hq
        simp [setFile, lookupFS, Ne.symm h]
      · simp only [setFile, if_neg hq, lookupFS]
        by_cases hq' : q' = q
        · simp [hq']
        · simp [hq', ih]

theorem lookupFS_copy_ne (fork home : FSys) (rel q : String) (h : q ≠ rel) :
    lookupFS (copyFileFS fork home rel) q = lookupFS home q := by
  unfold copyFileFS
  rcases lookupFS fork rel with _ | f
  · rfl
  · exact lookupFS_setFile_ne home rel f q h

theorem lookupFS_copy_self (fork home : FSys) (rel : String) (f : File)
    (h : lookupFS fork rel = some f) :
    lookupFS (copyFileFS fork home rel) rel = some f := by
  unfold copyFileFS
  rw [h]
  exact lookupFS_setFile_self home rel f

theorem foldl_copy_other (fork : FSys) :
    ∀ (ds : List String) (home : FSys) (q : String), q ∉ ds →
      lookupFS (ds.foldl (fun h d => copyFileFS fork h d) home) q
        = lookupFS home q := by
  intro ds
  induction ds with
  | nil => intro home q _; rfl
  | cons d rest ih =>
      intro home q hq
      have hqd : q ≠ d := fun hc => hq (hc ▸ List.mem_cons_self d rest)
      have hqr : q ∉ rest := fun hc => hq (List.mem_cons_of_mem d hc)
      simp only [List.foldl_cons]
      rw [ih (copyFileFS fork home d) q hqr]
      exact lookupFS_copy_ne fork home d q hqd

theorem foldl_copy_applied (fork : FSys) :
    ∀ (ds : List String) (home : FSys) (d : String), d ∈ ds →
      (lookupFS fork d).isSome = true →
      lookupFS (ds.foldl (fun h x => copyFileFS fork h x) home) d
        = lookupFS fork d := by
  intro ds
  induction ds with
  | nil => intro home d hd; cases hd
  | cons x rest ih =>
      intro home d hd hsome
      simp only [List.foldl_cons]
      by_cases hdr : d ∈ rest
      · exact ih (copyFileFS fork home x) d hdr hsome
      · have hdx : d = x := by
          rcases List.mem_cons.mp hd with h | h
          · exact h
          · exact absurd h hdr
        subst hdx
        rw [foldl_copy_other fork rest (copyFileFS fork home d) d hdr]
        obtain ⟨f, hf⟩ := Option.isSome_iff_exists.mp hsome
        rw [hf]
        exact lookupFS_copy_self fork home d f hf

theorem applyDiffs_done_first (fork : FSys) (fails : String → Bool)
    (tail : List String) :
    ∀ (done : List String) (home : FSys), (∀ d ∈ done, fails d = false) →
      applyDiffs fork home (done ++ tail) fails
        = applyDiffs fork (done.foldl (fun h d => copyFileFS fork h d) home)
            tail fails := by
  intro done
  induction done with
  | nil => intro home _; rfl
  | cons d rest ih =>
      intro home hok
      have hd : fails d = false := hok d (List.mem_cons_self d rest)
      rw [List.cons_append]
      simp only [applyDiffs]
      rw [hd, if_neg Bool.false_ne_true, List.foldl_cons]
      exact ih (copyFileFS fork home d)
        (fun x hx => hok x (List.mem_cons_of_mem d hx))

/-- C9: the update command applies New/Modified entries in diff-report
order; when the copy of `rel` fails after the entries in `done` were
copied, the operation reports the failing entry, the copied entries hold
the fork tree's file (content and permission bits), and every other path —
in particular the failing entry and all later ones — is untouched in the
home tree (no rollback). -/
theorem applyDiffs_partial_failure (fork home : FSys) (done : List String)
    (rel : String) (rest : List String) (fails : String → Bool)
    (hdone : ∀ d ∈ done, fails d = false) (hfail : fails rel = true)
    (hpresent : ∀ d ∈ done, (lookupFS fork d).isSome = true) :
    (applyDiffs fork home (done ++ rel :: rest) fails).2
        = some ("failed to update " ++ rel)
  ∧ (∀ d ∈ done,
        lookupFS (applyDiffs fork home (done ++ rel :: rest) fails).1 d
          = lookupFS fork d)
  ∧ (∀ q, q ∉ done →
        lookupFS (applyDiffs fork home (done ++ rel :: rest) fails).1 q
          = lookupFS home q) := by
  have happ : applyDiffs fork
        (done.foldl (fun h d => copyFileFS fork h d) home) (rel :: rest) fails
      = (done.foldl (fun h d => copyFileFS fork h d) home,
          some ("failed to update " ++ rel)) := by
    simp only [applyDiffs]
    rw [hfail, if_pos rfl]
  rw [applyDiffs_done_first fork fails (rel :: rest) done home hdone, happ]
  refine ⟨rfl, ?_, ?_⟩
  · intro d hd
    exact foldl_copy_applied fork done home d hd (hpresent d hd)
  · intro q hq
    exact foldl_copy_other fork done home q hq

/-- Witness for `applyDiffs_partial_failure`: copying `a` succeeds, `b`
fails, and the untouched path `b` keeps its home state. -/
theorem applyDiffs_partial_failure_witness :
    ((fun r => r == "b") "a" = false ∧ (fun r => r == "b") "b" = true ∧
      (lookupFS [("a", ⟨"x", 493⟩), ("b", ⟨"y", 420⟩)] "a").isSome = true) ∧
    ((applyDiffs [("a", ⟨"x", 493⟩), ("b", ⟨"y", 420⟩)] [] ["a", "b"]
          (fun r => r == "b")).2 = some ("failed to update " ++ "b")
  ∧ lookupFS (applyDiffs [("a", ⟨"x", 493⟩), ("b", ⟨"y", 420⟩)] [] ["a", "b"]
          (fun r => r == "b")).1 "a"
        = lookupFS [("a", ⟨"x", 493⟩), ("b", ⟨"y", 420⟩)] "a"
  ∧ lookupFS (applyDiffs [("a", ⟨"x", 493⟩), ("b", ⟨"y", 420⟩)] [] ["a", "b"]
          (fun r => r == "b")).1 "b" = lookupFS [] "b") :=
  ⟨⟨by decide, by decide, by decide⟩,
    (applyDiffs_partial_failure [("a", ⟨"x", 493⟩), ("b", ⟨"y", 420⟩)] []
        ["a"] "b" [] (fun r => r == "b") (by decide) (by decide)
        (by decide)).1,
    (applyDiffs_partial_failure [("a", ⟨"x", 493⟩), ("b", ⟨"y", 420⟩)] []
        ["a"] "b" [] (fun r => r == "b") (by decide) (by decide)
        (by decide)).2.1 "a" (by decide),
    (applyDiffs_partial_failure [("a", ⟨"x", 493⟩), ("b", ⟨"y", 420⟩)] []
        ["a"] "b" [] (fun r => r == "b") (by decide) (by decide)
        (by decide)).2.2 "b" (by decide)⟩

/-! ## C1: reify is all-or-nothing -/

theorem walk_dry_fail (ctx : Ctx) (sf : SecretFn) (p : String) (f : File)
    (err : TemplateError) :
    ∀ fs : FSys, (p, f) ∈ fs → eligible p = true →
      renderFile f.content ctx sf = .error err →
      (∀ e ∈ fs, e ≠ (p, f) → eligible e.1 = true →
        (renderFile e.2.content ctx sf).isOk = true) →
      walkAndProcess fs ctx sf true = (fs, some (renderErrMsg p err)) := by
  intro fs
  induction fs with
  | nil => intro hmem; cases hmem
  | cons e rest ih =>
      rcases e with ⟨q, g⟩
      intro hmem helig hfail hothers
      by_cases helq : eligible q = true
      · by_cases heq : (q, g) = (p, f)
        · injection heq with h1 h2
          subst h1
          subst h2
          simp only [walkAndProcess]
          rw [if_pos helq, hfail]
        · have hmem' : (p, f) ∈ rest := by
            rcases List.mem_cons.mp hmem with h | h
            · exact absurd h.symm heq
            · exact h
          have hok : (renderFile g.content ctx sf).isOk = true :=
            hothers (q, g) (List.mem_cons_self _ _) heq helq
          obtain ⟨out, hout⟩ : ∃ out, renderFile g.content ctx sf = .ok out := by
            rcases hr : renderFile g.content ctx sf with e' | o
            · rw [hr] at hok
              cases hok
            · exact ⟨o, rfl⟩
          simp only [walkAndProcess]
          rw [if_pos helq, hout]
          rw [ih hmem' helig hfail
            (fun e' he' hne he => hothers e'
              (List.mem_cons_of_mem _ he') hne he)]
          simp
      · have hne : (q, g) ≠ (p, f) := by
          intro hc
          injection hc with h1 _
          rw [h1] at helq
          exact helq helig
        have hmem' : (p, f) ∈ rest := by
          rcases List.mem_cons.mp hmem with h | h
          · exact absurd h.symm hne
          · exact h
        simp only [walkAndProcess]
        rw [if_neg helq]
        rw [ih hmem' helig hfail
          (fun e' he' hne' he => hothers e'
            (List.mem_cons_of_mem _ he') hne' he)]

/-- C1: if one eligible file under the root fails to render while every
other eligible file would succeed, `Reify` with `dryRun = false` returns an
error whose message identifies the failing path, and the whole tree —
failing file and all others, content and permissions — is left exactly as
it was before the call. -/
theorem reify_all_or_nothing (fs : FSys) (ctx : Ctx) (sf : SecretFn)
    (p : String) (f : File) (err : TemplateError)
    (hmem : (p, f) ∈ fs) (helig : eligible p = true)
    (hfail : renderFile f.content ctx sf = .error err)
    (hothers : ∀ e ∈ fs, e ≠ (p, f) → eligible e.1 = true →
      (renderFile e.2.content ctx sf).isOk = true) :
    Reify fs ctx sf false = (fs, some ("dry-run failed: " ++ renderErrMsg p err))
  ∧ ∃ pre post, "dry-run failed: " ++ renderErrMsg p err = pre ++ p ++ post := by
  constructor
  · unfold Reify
    rw [walk_dry_fail ctx sf p f err fs hmem helig hfail hothers]
  · cases err with
    | parse m =>
        refine ⟨"dry-run failed: " ++ "failed to parse template ", ": " ++ m, ?_⟩
        have h1 : renderErrMsg p (TemplateError.parse m)
            = "failed to parse template " ++ p ++ ": " ++ m := rfl
        rw [h1]
        simp only [String.append_assoc]
    | execute m =>
        refine ⟨"dry-run failed: " ++ "failed to execute template ", ": " ++ m, ?_⟩
        have h1 : renderErrMsg p (TemplateError.execute m)
            = "failed to execute template " ++ p ++ ": " ++ m := rfl
        rw [h1]
        simp only [String.append_assoc]

/-- Witness for `reify_all_or_nothing`: a two-file tree where `bad.txt`
fails on a missing context key and `ok.txt` would succeed. -/
theorem reify_all_or_nothing_witness :
    (("bad.txt", (⟨"\x7b\x7b .miss \x7d\x7d", 420⟩ : File))
        ∈ [("ok.txt", (⟨"hello", 420⟩ : File)),
           ("bad.txt", (⟨"\x7b\x7b .miss \x7d\x7d", 420⟩ : File))]
      ∧ eligible "bad.txt" = true
      ∧ renderFile "\x7b\x7b .miss \x7d\x7d" [] passThroughFn
          = .error (TemplateError.execute "map has no entry for key miss")) ∧
    (Reify [("ok.txt", ⟨"hello", 420⟩),
            ("bad.txt", ⟨"\x7b\x7b .miss \x7d\x7d", 420⟩)] [] passThroughFn false
        = ([("ok.txt", ⟨"hello", 420⟩),
            ("bad.txt", ⟨"\x7b\x7b .miss \x7d\x7d", 420⟩)],
           some ("dry-run failed: " ++ renderErrMsg "bad.txt"
              (TemplateError.execute "map has no entry for key miss")))
  ∧ ∃ pre post, "dry-run failed: " ++ renderErrMsg "bad.txt"
        (TemplateError.execute "map has no entry for key miss")
      = pre ++ "bad.txt" ++ post) :=
  ⟨⟨by decide, by decide, by decide⟩,
    reify_all_or_nothing
      [("ok.txt", ⟨"hello", 420⟩), ("bad.txt", ⟨"\x7b\x7b .miss \x7d\x7d", 420⟩)]
      [] passThroughFn "bad.txt" ⟨"\x7b\x7b .miss \x7d\x7d", 420⟩
      (TemplateError.execute "map has no entry for key miss")
      (by decide) (by decide) (by decide) (by decide)⟩

/-! ## C5: pass-through round trip -/

/-- C5 counterexample: rendering with secrets disabled still substitutes
context lookups, so a file containing a context lookup is not byte-identical
to its rendered output. -/
theorem passthrough_not_identity_counterexample :
    renderFile "\x7b\x7b .a \x7d\x7d" [(["a"], "1")] passThroughFn = .ok "1"
  ∧ ("1" : String) ≠ "\x7b\x7b .a \x7d\x7d" := by
  decide

theorem execNodes_serializePt (ctx : Ctx) :
    ∀ ns : List Node, fieldFree ns = true →
      execNodes ns ctx passThroughFn = .ok (serializePt ns) := by
  intro ns
  induction ns with
  | nil => intro _; rfl
  | cons n rest ih =>
      intro hff
      have hff' : fieldFree rest = true := by
        simp only [fieldFree, List.all_cons, Bool.and_eq_true] at hff
        exact hff.2
      cases n with
      | lit s =>
          simp only [execNodes, ih hff', Except.map, serializePt,
            List.flatMap_cons]
      | field ks =>
          exfalso
          simp [fieldFree, List.all_cons] at hff
      | secretCall k =>
          simp only [execNodes, passThroughFn, ih hff', Except.map,
            serializePt, List.flatMap_cons, List.toList_asString]

/-- C5 (amended): for every file whose template contains no context lookup
and whose bytes are exactly the canonical serialization of its parse
(literal text plus secret placeholders in the canonical re-quoted form),
rendering with the pass-through resolver returns the file byte-identical. -/
theorem passthrough_roundtrip (content : String) (ns : List Node) (ctx : Ctx)
    (hp : parseT content.toList = .ok ns) (hff : fieldFree ns = true)
    (hcanon : content.toList = serializePt ns) :
    renderFile content ctx passThroughFn = .ok content := by
  unfold renderFile
  rw [hp]
  dsimp only
  rw [execNodes_serializePt ctx ns hff]
  dsimp only
  rw [← hcanon, String.asString_toList]

/-- Witness for `passthrough_roundtrip` on the spec's end-to-end template
with secrets disabled. -/
theorem passthrough_roundtrip_witness :
    (parseT "value = \x7b\x7b \"KEY\" | secret \x7d\x7d".toList
        = .ok [Node.lit ['v', 'a', 'l', 'u', 'e', ' ', '=', ' '],
               Node.secretCall "KEY"]
      ∧ fieldFree [Node.lit ['v', 'a', 'l', 'u', 'e', ' ', '=', ' '],
               Node.secretCall "KEY"] = true
      ∧ "value = \x7b\x7b \"KEY\" | secret \x7d\x7d".toList
          = serializePt [Node.lit ['v', 'a', 'l', 'u', 'e', ' ', '=', ' '],
               Node.secretCall "KEY"]) ∧
    renderFile "value = \x7b\x7b \"KEY\" | secret \x7d\x7d" [] passThroughFn
      = .ok "value = \x7b\x7b \"KEY\" | secret \x7d\x7d" :=
  ⟨⟨by decide, by decide, by decide⟩,
    passthrough_roundtrip "value = \x7b\x7b \"KEY\" | secret \x7d\x7d"
      [Node.lit ['v', 'a', 'l', 'u', 'e', ' ', '=', ' '],
        Node.secretCall "KEY"] [] (by decide) (by decide) (by decide)⟩

/-! ## Groundwork for C6: the scanner on concatenations

The lemmas below characterize `parseT` on the strings that pass-through
rendering produces: fuel irrelevance, behavior on a literal character, on a
canonical secret placeholder, and on brace-free text. -/

theorem splitAtClose_length :
    ∀ (n : Nat) (b : Bool) (l body after : List Char), l.length ≤ n →
      splitAtClose b l = some (body, after) → after.length < l.length := by
  intro n
  induction n with
  | zero =>
      intro b l body after hlen h
      have hl : l = [] := List.eq_nil_of_length_eq_zero (by omega)
      subst hl
      cases b <;> simp [splitAtClose] at h
  | succ n ih =>
      intro b l body after hlen h
      rw [splitAtClose.eq_def] at h
      split at h
      · rename_i r
        injection h with h1
        have ha : after = r := (congrArg Prod.snd h1).symm
        rw [ha]
        simp only [List.length_cons]
        omega
      · rename_i r
        rcases hs : splitAtClose true r with _ | ⟨b1, a1⟩ <;> rw [hs] at h
        · simp at h
        · simp only [Option.map] at h
          have ha : after = a1 := (congrArg Prod.snd (Option.some.inj h)).symm
          have hr : a1.length < r.length :=
            ih true r b1 a1 (by simp at hlen; omega) hs
          rw [ha]
          simp only [List.length_cons]
          omega
      · rename_i c r h1x h2x
        rcases hs : splitAtClose false r with _ | ⟨b1, a1⟩ <;> rw [hs] at h
        · simp at h
        · simp only [Option.map] at h
          have ha : after = a1 := (congrArg Prod.snd (Option.some.inj h)).symm
          have hr : a1.length < r.length :=
            ih false r b1 a1 (by simp at hlen; omega) hs
          rw [ha]
          simp only [List.length_cons]
          omega
      · rename_i r
        rcases hs : splitAtClose false r with _ | ⟨b1, a1⟩ <;> rw [hs] at h
        · simp at h
        · simp only [Option.map] at h
          have ha : after = a1 := (congrArg Prod.snd (Option.some.inj h)).symm
          have hr : a1.length < r.length :=
            ih false r b1 a1 (by simp at hlen; omega) hs
          rw [ha]
          simp only [List.length_cons]
          omega
      · rename_i c r
        rcases hs : splitAtClose true r with _ | ⟨b1, a1⟩ <;> rw [hs] at h
        · simp at h
        · simp only [Option.map] at h
          have ha : after = a1 := (congrArg Prod.snd (Option.some.inj h)).symm
          have hr : a1.length < r.length :=
            ih true r b1 a1 (by simp at hlen; omega) hs
          rw [ha]
          simp only [List.length_cons]
          omega
      · rename_i c r h1x h2x
        rcases hs : splitAtClose true r with _ | ⟨b1, a1⟩ <;> rw [hs] at h
        · simp at h
        · simp only [Option.map] at h
          have ha : after = a1 := (congrArg Prod.snd (Option.some.inj h)).symm
          have hr : a1.length < r.length :=
            ih true r b1 a1 (by simp at hlen; omega) hs
          rw [ha]
          simp only [List.length_cons]
          omega
      · cases h

theorem parseTF_action (n : Nat) (rest : List Char) :
    parseTF (n + 1) ('{' :: '{' :: rest) =
      match splitAtClose false rest with
      | none => .error "unclosed action"
      | some (body, after) =>
          match parseActionBody body with
          | .error e => .error e
          | .ok node => (parseTF n after).map (fun ns => node :: ns) := rfl

theorem parseTF_cons (n : Nat) (c : Char) (rest : List Char)
    (h : ¬(c = '{' ∧ rest.head? = some '{')) :
    parseTF (n + 1) (c :: rest) = (parseTF n rest).map (consLit c) := by
  rw [parseTF.eq_def]
  split
  · rename_i heq
    omega
  · rename_i fuel heq
    have hf : fuel = n := by omega
    subst hf
    split
    · rename_i heq2
      simp at heq2
    · rename_i rest1 heq2
      injection heq2 with hc hrest
      exact absurd ⟨hc, by rw [hrest]; rfl⟩ h
    · rename_i heq2
      injection heq2 with hc hrest
      rw [hc, hrest]

theorem parseTF_fuel : ∀ (f1 : Nat) (cs : List Char) (f2 : Nat),
    cs.length < f1 → cs.length < f2 → parseTF f1 cs = parseTF f2 cs := by
  intro f1
  induction f1 with
  | zero => intro cs f2 h1 _; omega
  | succ n ih =>
      intro cs f2 h1 h2
      obtain ⟨m, rfl⟩ : ∃ m, f2 = m + 1 := ⟨f2 - 1, by omega⟩
      rcases cs with _ | ⟨c, rest⟩
      · rfl
      · by_cases hact : c = '{' ∧ rest.head? = some '{'
        · obtain ⟨hc, hd⟩ := hact
          subst hc
          rcases rest with _ | ⟨d, rest'⟩
          · cases hd
          · have hd' : d = '{' := Option.some.inj hd
            subst hd'
            rw [parseTF_action n rest', parseTF_action m rest']
            rcases hs : splitAtClose false rest' with _ | ⟨body, after⟩
            · rfl
            · dsimp only
              rcases hb : parseActionBody body with e | node
              · rfl
              · dsimp only
                have hafter : after.length < rest'.length :=
                  splitAtClose_length rest'.length false rest' body after
                    le_rfl hs
                rw [ih after m (by simp at h1; omega) (by simp at h2; omega)]
        · rw [parseTF_cons n c rest hact, parseTF_cons m c rest hact]
          rw [ih rest m (by simp at h1; omega) (by simp at h2; omega)]

theorem splitAtClose_false_cons (c : Char) (r : List Char) (h1 : c ≠ '"')
    (h2 : ¬(c = '}' ∧ r.head? = some '}')) :
    splitAtClose false (c :: r)
      = (splitAtClose false r).map (fun p => (c :: p.1, p.2)) := by
  rw [splitAtClose.eq_def]
  split <;> simp_all

theorem splitAtClose_true_cons (c : Char) (r : List Char) (h1 : c ≠ '"')
    (h2 : c ≠ '\\') :
    splitAtClose true (c :: r)
      = (splitAtClose true r).map (fun p => (c :: p.1, p.2)) := by
  rw [splitAtClose.eq_def]
  split <;> simp_all

theorem escape_cons (c : Char) (k : List Char) :
    escape (c :: k) = escChar c ++ escape k := by
  simp [escape]


theorem splitAtClose_escape : ∀ (k rem : List Char),
    splitAtClose true (escape k ++ '"' :: rem)
      = (splitAtClose false rem).map
          (fun p => ((escape k ++ ['"']) ++ p.1, p.2)) := by
  intro k
  induction k with
  | nil => intro rem; rfl
  | cons c k' ih =>
      intro rem
      rw [escape_cons]
      by_cases h1 : c = '"'
      · subst h1
        rw [show escChar '"' = ['\\', '"'] from rfl]
        simp only [List.cons_append, List.nil_append, List.append_assoc]
        rw [show splitAtClose true ('\\' :: '"' :: (escape k' ++ '"' :: rem))
            = (splitAtClose true (escape k' ++ '"' :: rem)).map
                (fun p => ('\\' :: '"' :: p.1, p.2)) from rfl]
        rw [ih rem, Option.map_map]
        congr 1
        funext p
        simp [escape_cons]
      · by_cases h2 : c = '\\'
        · subst h2
          rw [show escChar '\\' = ['\\', '\\'] from rfl]
          simp only [List.cons_append, List.nil_append, List.append_assoc]
          rw [show splitAtClose true ('\\' :: '\\' :: (escape k' ++ '"' :: rem))
              = (splitAtClose true (escape k' ++ '"' :: rem)).map
                  (fun p => ('\\' :: '\\' :: p.1, p.2)) from rfl]
          rw [ih rem, Option.map_map]
          congr 1
          funext p
          simp [escape_cons]
        · by_cases h3 : c = '\n'
          · subst h3
            rw [show escChar '\n' = ['\\', 'n'] from rfl]
            simp only [List.cons_append, List.nil_append, List.append_assoc]
            rw [show splitAtClose true ('\\' :: 'n' :: (escape k' ++ '"' :: rem))
                = (splitAtClose true (escape k' ++ '"' :: rem)).map
                    (fun p => ('\\' :: 'n' :: p.1, p.2)) from rfl]
            rw [ih rem, Option.map_map]
            congr 1
            funext p
            simp [escape_cons]
          · by_cases h4 : c = '\t'
            · subst h4
              rw [show escChar '\t' = ['\\', 't'] from rfl]
              simp only [List.cons_append, List.nil_append, List.append_assoc]
              rw [show splitAtClose true ('\\' :: 't' :: (escape k' ++ '"' :: rem))
                  = (splitAtClose true (escape k' ++ '"' :: rem)).map
                      (fun p => ('\\' :: 't' :: p.1, p.2)) from rfl]
              rw [ih rem, Option.map_map]
              congr 1
              funext p
              simp [escape_cons]
            · by_cases h5 : c = '\r'
              · subst h5
                rw [show escChar '\r' = ['\\', 'r'] from rfl]
                simp only [List.cons_append, List.nil_append, List.append_assoc]
                rw [show splitAtClose true ('\\' :: 'r' :: (escape k' ++ '"' :: rem))
                    = (splitAtClose true (escape k' ++ '"' :: rem)).map
                        (fun p => ('\\' :: 'r' :: p.1, p.2)) from rfl]
                rw [ih rem, Option.map_map]
                congr 1
                funext p
                simp [escape_cons]
              · rw [show escChar c = [c] from by
                  simp [escChar, h1, h2, h3, h4, h5]]
                simp only [List.cons_append, List.nil_append, List.append_assoc]
                rw [splitAtClose_true_cons c (escape k' ++ '"' :: rem) h1 h2]
                rw [ih rem, Option.map_map]
                congr 1
                funext p
                simp [escape_cons]

theorem parseQuoted_cons (c : Char) (r : List Char) (h1 : c ≠ '"')
    (h2 : c ≠ '\\') :
    parseQuoted (c :: r)
      = (parseQuoted r).map (fun p => (c.toString ++ p.1, p.2)) := by
  rcases hq : parseQuoted r with _ | ⟨s, t⟩ <;>
    · rw [parseQuoted.eq_def]
      split <;> simp_all

theorem parseQuoted_escape : ∀ (k rem : List Char),
    parseQuoted (escape k ++ '"' :: rem) = some (k.asString, rem) := by
  intro k
  induction k with
  | nil => intro rem; rfl
  | cons c k' ih =>
      intro rem
      rw [escape_cons]
      by_cases h1 : c = '"'
      · subst h1
        rw [show escChar '"' = ['\\', '"'] from rfl]
        simp only [List.cons_append, List.nil_append, List.append_assoc]
        rw [show parseQuoted ('\\' :: '"' :: (escape k' ++ '"' :: rem))
            = (match parseQuoted (escape k' ++ '"' :: rem) with
               | none => none
               | some (s, t) => some ("\"" ++ s, t)) from rfl]
        rw [ih rem]
        rfl
      · by_cases h2 : c = '\\'
        · subst h2
          rw [show escChar '\\' = ['\\', '\\'] from rfl]
          simp only [List.cons_append, List.nil_append, List.append_assoc]
          rw [show parseQuoted ('\\' :: '\\' :: (escape k' ++ '"' :: rem))
              = (match parseQuoted (escape k' ++ '"' :: rem) with
                 | none => none
                 | some (s, t) => some ("\\" ++ s, t)) from rfl]
          rw [ih rem]
          rfl
        · by_cases h3 : c = '\n'
          · subst h3
            rw [show escChar '\n' = ['\\', 'n'] from rfl]
            simp only [List.cons_append, List.nil_append, List.append_assoc]
            rw [show parseQuoted ('\\' :: 'n' :: (escape k' ++ '"' :: rem))
                = (match parseQuoted (escape k' ++ '"' :: rem) with
                   | none => none
                   | some (s, t) => some ("\n" ++ s, t)) from rfl]
            rw [ih rem]
            rfl
          · by_cases h4 : c = '\t'
            · subst h4
              rw [show escChar '\t' = ['\\', 't'] from rfl]
              simp only [List.cons_append, List.nil_append, List.append_assoc]
              rw [show parseQuoted ('\\' :: 't' :: (escape k' ++ '"' :: rem))
                  = (match parseQuoted (escape k' ++ '"' :: rem) with
                     | none => none
                     | some (s, t) => some ("\t" ++ s, t)) from rfl]
              rw [ih rem]
              rfl
            · by_cases h5 : c = '\r'
              · subst h5
                rw [show escChar '\r' = ['\\', 'r'] from rfl]
                simp only [List.cons_append, List.nil_append, List.append_assoc]
                rw [show parseQuoted ('\\' :: 'r' :: (escape k' ++ '"' :: rem))
                    = (match parseQuoted (escape k' ++ '"' :: rem) with
                       | none => none
                       | some (s, t) => some ("\r" ++ s, t)) from rfl]
                rw [ih rem]
                rfl
              · rw [show escChar c = [c] from by
                  simp [escChar, h1, h2, h3, h4, h5]]
                simp only [List.cons_append, List.nil_append, List.append_assoc]
                rw [parseQuoted_cons c (escape k' ++ '"' :: rem) h1 h2]
                rw [ih rem]
                rfl

theorem canonChars_eq (k : String) :
    canonChars k = '{' :: '{' :: (bodyCore k ++ ['}', '}']) := by
  simp [canonChars, bodyCore, secretTail]

theorem except_map_map {ε α β γ : Type} (f : α → β) (g : β → γ)
    (e : Except ε α) : (e.map f).map g = e.map (fun x => g (f x)) := by
  cases e <;> rfl

theorem splitAtClose_bodyCore (k : String) (rest : List Char) :
    splitAtClose false (bodyCore k ++ '}' :: '}' :: rest)
      = some (bodyCore k, rest) := by
  have h0 : bodyCore k ++ '}' :: '}' :: rest
      = ' ' :: ('"' :: (escape k.toList ++ '"' ::
          ([' ', '|', ' ', 's', 'e', 'c', 'r', 'e', 't', ' ']
            ++ '}' :: '}' :: rest))) := by
    simp [bodyCore, secretTail]
  rw [h0]
  rw [splitAtClose_false_cons ' ' _ (by decide) (by simp)]
  rw [show splitAtClose false ('"' :: (escape k.toList ++ '"' ::
        ([' ', '|', ' ', 's', 'e', 'c', 'r', 'e', 't', ' ']
          ++ '}' :: '}' :: rest)))
      = (splitAtClose true (escape k.toList ++ '"' ::
          ([' ', '|', ' ', 's', 'e', 'c', 'r', 'e', 't', ' ']
            ++ '}' :: '}' :: rest))).map
            (fun p => ('"' :: p.1, p.2)) from rfl]
  rw [splitAtClose_escape k.toList
    ([' ', '|', ' ', 's', 'e', 'c', 'r', 'e', 't', ' '] ++ '}' :: '}' :: rest)]
  rw [show splitAtClose false
        ([' ', '|', ' ', 's', 'e', 'c', 'r', 'e', 't', ' '] ++ '}' :: '}' :: rest)
      = some ([' ', '|', ' ', 's', 'e', 'c', 'r', 'e', 't', ' '], rest) from rfl]
  simp [bodyCore, secretTail]

theorem parseActionBody_bodyCore (k : String) :
    parseActionBody (bodyCore k) = .ok (Node.secretCall k) := by
  have hb : skipSpaces (bodyCore k) = '"' :: (escape k.toList ++ secretTail) := by
    simp [bodyCore, skipSpaces]
  unfold parseActionBody
  rw [hb]
  rw [show parseActionCore ('"' :: (escape k.toList ++ secretTail))
      = (match parseQuoted (escape k.toList ++ secretTail) with
         | none => .error "bad string literal in action"
         | some (key, r') =>
             match skipSpaces r' with
             | '|' :: r'' =>
                 match parseIdent (skipSpaces r'') with
                 | some (fn, r''') =>
                     if fn = "secret" && skipSpaces r''' = [] then
                       .ok (Node.secretCall key)
                     else .error "unknown pipeline function"
                 | none => .error "missing pipeline function"
             | _ => .error "unexpected text after string literal") from rfl]
  rw [show escape k.toList ++ secretTail
      = escape k.toList ++ '"' :: [' ', '|', ' ', 's', 'e', 'c', 'r', 'e', 't', ' ']
      from rfl]
  rw [parseQuoted_escape k.toList [' ', '|', ' ', 's', 'e', 'c', 'r', 'e', 't', ' ']]
  have h1 : ['s', 'e', 'c', 'r', 'e', 't'].asString = "secret" := by decide
  have h2 : k.data.asString = k := String.asString_toList k
  simp [skipSpaces, parseIdent, isIdentChar, h1, h2]

theorem parseT_action (rest : List Char) :
    parseT ('{' :: '{' :: rest) =
      match splitAtClose false rest with
      | none => .error "unclosed action"
      | some (body, after) =>
          match parseActionBody body with
          | .error e => .error e
          | .ok node => (parseT after).map (fun ns => node :: ns) := by
  unfold parseT
  rw [show ('{' :: '{' :: rest).length + 1 = (rest.length + 2) + 1 from by simp]
  rw [parseTF_action (rest.length + 2) rest]
  rcases hs : splitAtClose false rest with _ | ⟨body, after⟩
  · rfl
  · dsimp only
    rcases hb : parseActionBody body with e | node
    · rfl
    · dsimp only
      have hlt : after.length < rest.length :=
        splitAtClose_length rest.length false rest body after le_rfl hs
      rw [parseTF_fuel (rest.length + 2) after (after.length + 1) (by omega)
        (by omega)]

theorem parseT_cons (c : Char) (rest : List Char)
    (h : ¬(c = '{' ∧ rest.head? = some '{')) :
    parseT (c :: rest) = (parseT rest).map (consLit c) := by
  unfold parseT
  rw [show (c :: rest).length + 1 = (rest.length + 1) + 1 from by simp]
  rw [parseTF_cons (rest.length + 1) c rest h]

theorem parseT_canon (k : String) (rest : List Char) :
    parseT (canonChars k ++ rest)
      = (parseT rest).map (fun ns => Node.secretCall k :: ns) := by
  rw [canonChars_eq]
  rw [show ('{' :: '{' :: (bodyCore k ++ ['}', '}'])) ++ rest
      = '{' :: '{' :: (bodyCore k ++ '}' :: '}' :: rest) from by simp]
  rw [parseT_action]
  rw [splitAtClose_bodyCore k rest]
  dsimp only
  rw [parseActionBody_bodyCore k]


theorem noOpenB_cons (c : Char) (l : List Char) (h : noOpenB (c :: l) = true) :
    noOpenB l = true := by
  rw [noOpenB.eq_def] at h
  split at h
  · cases h
  · rename_i heq
    injection heq with hc hl
    rw [hl]
    exact h
  · rename_i heq
    cases heq

theorem parseT_safe : ∀ (safe rest : List Char), noOpenB safe = true →
    (safe.getLast? ≠ some '{' ∨ rest.head? ≠ some '{') →
    parseT (safe ++ rest)
      = (parseT rest).map (fun ns => safe.foldr consLit ns) := by
  intro safe
  induction safe with
  | nil =>
      intro rest _ _
      rcases hp : parseT rest with e | ns <;> simp [hp, Except.map]
  | cons c safe' ih =>
      intro rest hno hj
      have hstep : ¬(c = '{' ∧ (safe' ++ rest).head? = some '{') := by
        rintro ⟨hc, hh⟩
        rcases safe' with _ | ⟨d, s2⟩
        · simp only [List.nil_append] at hh
          rcases hj with hj | hj
          · exact hj (by simp [hc])
          · exact hj hh
        · subst hc
          have hd : d = '{' := by
            simp only [List.cons_append, List.head?_cons] at hh
            exact Option.some.inj hh
          subst hd
          simp [noOpenB] at hno
      rw [List.cons_append, parseT_cons c (safe' ++ rest) hstep]
      have hno' : noOpenB safe' = true := noOpenB_cons c safe' hno
      have hj' : safe'.getLast? ≠ some '{' ∨ rest.head? ≠ some '{' := by
        rcases safe' with _ | ⟨d, s2⟩
        · left
          simp
        · rcases hj with hj | hj
          · left
            rw [List.getLast?_cons_cons] at hj
            exact hj
          · right
            exact hj
      rw [ih rest hno' hj', except_map_map]
      rfl

theorem execNodes_consLit (c : Char) (ns : List Node) (ctx : Ctx)
    (sf : SecretFn) :
    execNodes (consLit c ns) ctx sf
      = (execNodes ns ctx sf).map (fun out => c :: out) := by
  cases ns with
  | nil => rfl
  | cons n rest =>
      cases n with
      | lit s =>
          rcases he : execNodes rest ctx sf with e | o <;>
            simp [consLit, execNodes, he, Except.map]
      | field ks =>
          rcases hl : lookupCtx ctx ks with _ | v <;>
            rcases he : execNodes rest ctx sf with e | o <;>
              simp [consLit, execNodes, he, hl, Except.map]
      | secretCall k =>
          rcases hs : sf k with e | v <;>
            rcases he : execNodes rest ctx sf with e2 | o <;>
              simp [consLit, execNodes, he, hs, Except.map]

theorem execNodes_foldr_consLit (cs : List Char) (ns : List Node) (ctx : Ctx)
    (sf : SecretFn) :
    execNodes (cs.foldr consLit ns) ctx sf
      = (execNodes ns ctx sf).map (fun out => cs ++ out) := by
  induction cs with
  | nil =>
      rcases he : execNodes ns ctx sf with e | o <;> simp [he, Except.map]
  | cons c cs' ih =>
      rw [List.foldr_cons, execNodes_consLit, ih, except_map_map]
      rfl

theorem parseActionBody_not_lit (body : List Char) (n : Node)
    (h : parseActionBody body = .ok n) : ∀ s, n ≠ Node.lit s := by
  intro s hn
  subst hn
  unfold parseActionBody at h
  generalize skipSpaces body = b at h
  rw [parseActionCore.eq_def] at h
  repeat' split at h
  all_goals simp_all

theorem parseT_head (cs : List Char) (n : Node) (t : List Node)
    (hp : parseT cs = .ok (n :: t)) :
    (∀ s, n = Node.lit s → s ≠ [] ∧ s.head? = cs.head?)
  ∧ ((∀ s, n ≠ Node.lit s) → cs.head? = some '{') := by
  rcases cs with _ | ⟨c, rest⟩
  · rw [show parseT [] = Except.ok [] from rfl] at hp
    simp at hp
  · by_cases hact : c = '{' ∧ rest.head? = some '{'
    · obtain ⟨hc, hd⟩ := hact
      subst hc
      constructor
      · intro s hn
        subst hn
        exfalso
        rcases rest with _ | ⟨d, rest'⟩
        · cases hd
        · have hd' : d = '{' := Option.some.inj hd
          subst hd'
          rw [parseT_action rest'] at hp
          rcases hs : splitAtClose false rest' with _ | ⟨body, after⟩ <;>
            rw [hs] at hp
          · cases hp
          · dsimp only at hp
            rcases hb : parseActionBody body with e | node <;> rw [hb] at hp
            · cases hp
            · dsimp only at hp
              rcases ha : parseT after with e | ns' <;> rw [ha] at hp <;>
                simp [Except.map] at hp
              exact parseActionBody_not_lit body node hb s hp.1
      · intro _
        rfl
    · rw [parseT_cons c rest hact] at hp
      rcases ha : parseT rest with e | ns' <;> rw [ha] at hp <;>
        simp [Except.map] at hp
      constructor
      · intro s hn
        subst hn
        rcases ns' with _ | ⟨m, t'⟩
        · simp [consLit] at hp
          obtain ⟨h1, _⟩ := hp
          rw [← h1]
          exact ⟨by simp, rfl⟩
        · cases m with
          | lit s0 =>
              simp [consLit] at hp
              obtain ⟨h1, _⟩ := hp
              rw [← h1]
              exact ⟨by simp, rfl⟩
          | field ks =>
              simp [consLit] at hp
              obtain ⟨h1, _⟩ := hp
              rw [← h1]
              exact ⟨by simp, rfl⟩
          | secretCall k =>
              simp [consLit] at hp
              obtain ⟨h1, _⟩ := hp
              rw [← h1]
              exact ⟨by simp, rfl⟩
      · intro hnl
        exfalso
        rcases ns' with _ | ⟨m, t'⟩
        · simp [consLit] at hp
          exact hnl [c] hp.1.symm
        · cases m with
          | lit s0 =>
              simp [consLit] at hp
              exact hnl (c :: s0) hp.1.symm
          | field ks =>
              simp [consLit] at hp
              exact hnl [c] hp.1.symm
          | secretCall k =>
              simp [consLit] at hp
              exact hnl [c] hp.1.symm


theorem noOpenB_single (c : Char) : noOpenB [c] = true := by
  rw [noOpenB.eq_def]
  split <;> simp_all [noOpenB]

theorem noOpenB_cons_intro (c : Char) (s : List Char) (h1 : noOpenB s = true)
    (h2 : ¬(c = '{' ∧ s.head? = some '{')) : noOpenB (c :: s) = true := by
  rw [noOpenB.eq_def]
  split <;> simp_all

theorem parseT_good : ∀ (bound : Nat) (cs : List Char), cs.length ≤ bound →
    ∀ ns, parseT cs = .ok ns → goodNodes ns = true := by
  intro bound
  induction bound with
  | zero =>
      intro cs hlen ns hp
      have hcs : cs = [] := List.eq_nil_of_length_eq_zero (by omega)
      subst hcs
      rw [show parseT [] = Except.ok [] from rfl] at hp
      rw [← Except.ok.inj hp]
      rfl
  | succ bound ih =>
      intro cs hlen ns hp
      rcases cs with _ | ⟨c, rest⟩
      · rw [show parseT [] = Except.ok [] from rfl] at hp
        rw [← Except.ok.inj hp]
        rfl
      · by_cases hact : c = '{' ∧ rest.head? = some '{'
        · obtain ⟨hc, hd⟩ := hact
          subst hc
          rcases rest with _ | ⟨d, rest'⟩
          · cases hd
          · have hd' : d = '{' := Option.some.inj hd
            subst hd'
            rw [parseT_action rest'] at hp
            rcases hs : splitAtClose false rest' with _ | ⟨body, after⟩ <;>
              rw [hs] at hp
            · cases hp
            · dsimp only at hp
              rcases hb : parseActionBody body with e | node <;> rw [hb] at hp
              · cases hp
              · dsimp only at hp
                rcases ha : parseT after with e | ns' <;> rw [ha] at hp <;>
                  simp [Except.map] at hp
                have hlt : after.length < rest'.length :=
                  splitAtClose_length rest'.length false rest' body after
                    le_rfl hs
                have hg' : goodNodes ns' = true :=
                  ih after (by simp at hlen; omega) ns' ha
                rw [← hp]
                cases node with
                | lit s => exact absurd rfl (parseActionBody_not_lit body _ hb s)
                | field ks => simpa [goodNodes] using hg'
                | secretCall k => simpa [goodNodes] using hg'
        · rw [parseT_cons c rest hact] at hp
          rcases ha : parseT rest with e | ns' <;> rw [ha] at hp <;>
            simp [Except.map] at hp
          have hg' : goodNodes ns' = true :=
            ih rest (by simp at hlen; omega) ns' ha
          rw [← hp]
          rcases ns' with _ | ⟨m, t'⟩
          · simp [consLit, goodNodes, noOpenB_single]
          · cases m with
            | lit s0 =>
                obtain ⟨hs0ne, hs0h⟩ :=
                  (parseT_head rest (Node.lit s0) t' ha).1 s0 rfl
                simp only [goodNodes, Bool.and_eq_true] at hg'
                obtain ⟨⟨hg1, hg2⟩, hg3⟩ := hg'
                have hnopen : noOpenB (c :: s0) = true := by
                  apply noOpenB_cons_intro c s0 hg1
                  rintro ⟨hceq, hh2⟩
                  exact hact ⟨hceq, by rw [← hs0h]; exact hh2⟩
                rcases s0 with _ | ⟨x, xs⟩
                · exact absurd rfl hs0ne
                · simp only [consLit, goodNodes, Bool.and_eq_true]
                  refine ⟨⟨hnopen, ?_⟩, hg3⟩
                  rw [List.getLast?_cons_cons]
                  exact hg2
            | field ks =>
                have hne : ∀ s, Node.field ks ≠ Node.lit s := by
                  intro s hc2
                  cases hc2
                have hh := (parseT_head rest (Node.field ks) t' ha).2 hne
                have hcne : c ≠ '{' := fun hceq => hact ⟨hceq, hh⟩
                simp only [consLit, goodNodes, Bool.and_eq_true]
                refine ⟨⟨noOpenB_single c, ?_⟩, ?_⟩
                · simp [hcne]
                · simpa [goodNodes] using hg'
            | secretCall k =>
                have hne : ∀ s, Node.secretCall k ≠ Node.lit s := by
                  intro s hc2
                  cases hc2
                have hh := (parseT_head rest (Node.secretCall k) t' ha).2 hne
                have hcne : c ≠ '{' := fun hceq => hact ⟨hceq, hh⟩
                simp only [consLit, goodNodes, Bool.and_eq_true]
                refine ⟨⟨noOpenB_single c, ?_⟩, ?_⟩
                · simp [hcne]
                · simpa [goodNodes] using hg'

theorem lookupCtx_mem : ∀ (ctx : Ctx) (ks : List String) (v : String),
    lookupCtx ctx ks = some v → (ks, v) ∈ ctx := by
  intro ctx
  induction ctx with
  | nil => intro ks v h; cases h
  | cons pr rest ih =>
      intro ks v h
      rcases pr with ⟨ks', v'⟩
      by_cases hk : ks' = ks
      · subst hk
        rw [lookupCtx, if_pos rfl] at h
        rw [← Option.some.inj h]
        exact List.mem_cons_self _ _
      · rw [lookupCtx, if_neg hk] at h
        exact List.mem_cons_of_mem _ (ih ks v h)

theorem noOpenB_of_noBrace : ∀ l : List Char,
    l.all (fun c => c ≠ '{') = true → noOpenB l = true := by
  intro l
  induction l with
  | nil => intro _; rfl
  | cons c l' ih =>
      intro h
      simp only [List.all_cons, Bool.and_eq_true, decide_eq_true_eq] at h
      exact noOpenB_cons_intro c l'
        (ih (by simp [List.all_eq_true] at h ⊢; exact h.2))
        (fun hc => h.1 hc.1)

theorem getLast_of_noBrace (l : List Char)
    (h : l.all (fun c => c ≠ '{') = true) : l.getLast? ≠ some '{' := by
  intro hc
  have hmem : '{' ∈ l := by
    rcases List.getLast?_eq_some_iff.mp hc with ⟨l', hl⟩
    rw [hl]
    exact List.mem_concat_self l' _
  simp only [List.all_eq_true, decide_eq_true_eq] at h
  exact h '{' hmem rfl

theorem reparse_fixed (ctx : Ctx) (hv : valsOK ctx = true) :
    ∀ ns out, goodNodes ns = true →
      execNodes ns ctx passThroughFn = .ok out →
      ∃ ns2, parseT out = .ok ns2 ∧
        execNodes ns2 ctx passThroughFn = .ok out := by
  intro ns
  induction ns with
  | nil =>
      intro out _ hx
      rw [show execNodes [] ctx passThroughFn = .ok [] from rfl] at hx
      rw [← Except.ok.inj hx]
      exact ⟨[], rfl, rfl⟩
  | cons n rest ih =>
      intro out hg hx
      cases n with
      | lit s =>
          simp only [execNodes] at hx
          rcases hr : execNodes rest ctx passThroughFn with e | out' <;>
            rw [hr] at hx
          · cases hx
          · simp only [Except.map] at hx
            have hout : out = s ++ out' := (Except.ok.inj hx).symm
            simp only [goodNodes, Bool.and_eq_true] at hg
            obtain ⟨⟨hg1, hg2⟩, hg3⟩ := hg
            obtain ⟨ns2, hp2, he2⟩ := ih out' hg3 hr
            have hj : s.getLast? ≠ some '{' ∨ out'.head? ≠ some '{' := by
              rcases rest with _ | ⟨m, t'⟩
              · right
                rw [show execNodes [] ctx passThroughFn = .ok [] from rfl] at hr
                rw [← Except.ok.inj hr]
                simp
              · left
                simp only [List.isEmpty_cons, Bool.false_or,
                  decide_eq_true_eq] at hg2
                exact hg2
            refine ⟨s.foldr consLit ns2, ?_, ?_⟩
            · rw [hout, parseT_safe s out' hg1 hj, hp2]
              rfl
            · rw [execNodes_foldr_consLit, he2, hout]
              rfl
      | field ks =>
          simp only [execNodes] at hx
          rcases hl : lookupCtx ctx ks with _ | v <;> rw [hl] at hx
          · cases hx
          · rcases hr : execNodes rest ctx passThroughFn with e | out' <;>
              rw [hr] at hx
            · cases hx
            · simp only [Except.map] at hx
              have hout : out = v.toList ++ out' := (Except.ok.inj hx).symm
              have hg3 : goodNodes rest = true := hg
              obtain ⟨ns2, hp2, he2⟩ := ih out' hg3 hr
              have hnb : v.toList.all (fun c => c ≠ '{') = true := by
                have hmem := lookupCtx_mem ctx ks v hl
                simp only [valsOK, List.all_eq_true] at hv
                exact hv (ks, v) hmem
              have hno : noOpenB v.toList = true := noOpenB_of_noBrace _ hnb
              have hjl : v.toList.getLast? ≠ some '{' := getLast_of_noBrace _ hnb
              refine ⟨v.toList.foldr consLit ns2, ?_, ?_⟩
              · rw [hout, parseT_safe v.toList out' hno (Or.inl hjl), hp2]
                rfl
              · rw [execNodes_foldr_consLit, he2, hout]
                rfl
      | secretCall k =>
          simp only [execNodes, passThroughFn] at hx
          rcases hr : execNodes rest ctx passThroughFn with e | out' <;>
            rw [hr] at hx
          · cases hx
          · simp only [Except.map] at hx
            have hout : out = (canonChars k).asString.toList ++ out' :=
              (Except.ok.inj hx).symm
            have hout2 : out = canonChars k ++ out' := by
              rw [hout, List.toList_asString]
            have hg3 : goodNodes rest = true := hg
            obtain ⟨ns2, hp2, he2⟩ := ih out' hg3 hr
            refine ⟨Node.secretCall k :: ns2, ?_, ?_⟩
            · rw [hout2, parseT_canon k out', hp2]
              rfl
            · simp only [execNodes, passThroughFn, he2, Except.map]
              rw [hout2, List.toList_asString]


theorem renderFile_fixed (ctx : Ctx) (hv : valsOK ctx = true)
    (content out : String)
    (h : renderFile content ctx passThroughFn = .ok out) :
    renderFile out ctx passThroughFn = .ok out := by
  unfold renderFile at h ⊢
  rcases hp : parseT content.toList with e | ns <;> rw [hp] at h
  · cases h
  · dsimp only at h
    rcases hx : execNodes ns ctx passThroughFn with e | outChars <;>
      rw [hx] at h
    · cases h
    · have hout : out = outChars.asString := (Except.ok.inj h).symm
      have hg : goodNodes ns = true :=
        parseT_good content.toList.length content.toList le_rfl ns hp
      obtain ⟨ns2, hp2, he2⟩ := reparse_fixed ctx hv ns outChars hg hx
      subst hout
      rw [show (outChars.asString).toList = outChars from
        List.toList_asString outChars]
      rw [hp2]
      dsimp only
      rw [he2]

theorem walk_false_none (ctx : Ctx) (sf : SecretFn) :
    ∀ fs : FSys, (walkAndProcess fs ctx sf true).2 = none →
      (walkAndProcess fs ctx sf false).2 = none := by
  intro fs
  induction fs with
  | nil => intro _; rfl
  | cons e rest ih =>
      rcases e with ⟨p, f⟩
      intro h
      by_cases hel : eligible p = true
      · rcases hr : renderFile f.content ctx sf with er | out
        · simp only [walkAndProcess, hel, if_pos, hr] at h
          cases h
        · simp only [walkAndProcess, hel, if_pos, hr] at h ⊢
          exact ih h
      · simp only [walkAndProcess, hel] at h ⊢
        simp only [Bool.false_eq_true, if_neg] at h ⊢
        exact ih h

theorem walk_commit_self (ctx : Ctx) (hv : valsOK ctx = true) :
    ∀ (fs fs' : FSys),
      walkAndProcess fs ctx passThroughFn false = (fs', none) →
      ∀ e ∈ fs', eligible e.1 = true →
        renderFile e.2.content ctx passThroughFn = .ok e.2.content := by
  intro fs
  induction fs with
  | nil =>
      intro fs' h e he _
      have : fs' = [] := (congrArg Prod.fst h).symm
      subst this
      cases he
  | cons pr rest ih =>
      rcases pr with ⟨p, f⟩
      intro fs' h e he hel
      by_cases help : eligible p = true
      · rcases hr : renderFile f.content ctx passThroughFn with er | out
        · simp only [walkAndProcess, help, if_pos, hr] at h
          have : (some (renderErrMsg p er) : Option String) = none :=
            congrArg Prod.snd h
          cases this
        · simp only [walkAndProcess, help, if_pos, hr] at h
          have hfst : (p, { content := out, perm := f.perm }) ::
              (walkAndProcess rest ctx passThroughFn false).1 = fs' := by
            have := congrArg Prod.fst h
            simpa using this
          have hsnd : (walkAndProcess rest ctx passThroughFn false).2 = none := by
            have := congrArg Prod.snd h
            simpa using this
          rw [← hfst] at he
          rcases List.mem_cons.mp he with heq | hmem
          · subst heq
            exact renderFile_fixed ctx hv f.content out hr
          · exact ih (walkAndProcess rest ctx passThroughFn false).1
              (Prod.ext rfl hsnd) e hmem hel
      · simp only [walkAndProcess, help] at h
        simp only [Bool.false_eq_true, if_neg] at h
        have hfst : (p, f) ::
            (walkAndProcess rest ctx passThroughFn false).1 = fs' := by
          have := congrArg Prod.fst h
          simpa using this
        have hsnd : (walkAndProcess rest ctx passThroughFn false).2 = none := by
          have := congrArg Prod.snd h
          simpa using this
        rw [← hfst] at he
        rcases List.mem_cons.mp he with heq | hmem
        · subst heq
          rw [hel] at help
          exact absurd rfl help
        · exact ih (walkAndProcess rest ctx passThroughFn false).1
            (Prod.ext rfl hsnd) e hmem hel

theorem walk_id_of_self (ctx : Ctx) (sf : SecretFn) :
    ∀ (fs : FSys),
      (∀ e ∈ fs, eligible e.1 = true →
        renderFile e.2.content ctx sf = .ok e.2.content) →
      ∀ dry, walkAndProcess fs ctx sf dry = (fs, none) := by
  intro fs
  induction fs with
  | nil => intro _ dry; rfl
  | cons pr rest ih =>
      rcases pr with ⟨p, f⟩
      intro hself dry
      have hrest : walkAndProcess rest ctx sf dry = (rest, none) :=
        ih (fun e he hel => hself e (List.mem_cons_of_mem _ he) hel) dry
      by_cases help : eligible p = true
      · have hr : renderFile f.content ctx sf = .ok f.content :=
          hself (p, f) (List.mem_cons_self _ _) help
        cases dry <;> simp [walkAndProcess, help, hr, hrest]
      · simp [walkAndProcess, help, hrest]


theorem walk_dry_fst (ctx : Ctx) (sf : SecretFn) :
    ∀ fs : FSys, (walkAndProcess fs ctx sf true).1 = fs := by
  intro fs
  induction fs with
  | nil => rfl
  | cons e rest ih =>
      rcases e with ⟨p, f⟩
      by_cases hel : eligible p = true
      · rcases hr : renderFile f.content ctx sf with er | out
        · simp [walkAndProcess, hel, hr]
        · simp [walkAndProcess, hel, hr, ih]
      · simp [walkAndProcess, hel, ih]

/-- C6 (amended): provided no context value contains an opening brace (so
substituted values cannot form new template actions), reifying a tree with
secrets disabled (pass-through resolver) twice in succession equals
reifying it once: the second reification returns the first's tree and
outcome unchanged. -/
theorem reify_passthrough_idempotent (fs : FSys) (ctx : Ctx)
    (hv : valsOK ctx = true) :
    Reify (Reify fs ctx passThroughFn false).1 ctx passThroughFn false
      = Reify fs ctx passThroughFn false := by
  by_cases hdry : (walkAndProcess fs ctx passThroughFn true).2 = none
  · have hw2 : walkAndProcess fs ctx passThroughFn false
        = ((walkAndProcess fs ctx passThroughFn false).1, none) :=
      Prod.ext rfl (walk_false_none ctx passThroughFn fs hdry)
    have hw1 : walkAndProcess fs ctx passThroughFn true = (fs, none) :=
      Prod.ext (walk_dry_fst ctx passThroughFn fs) hdry
    have hR : Reify fs ctx passThroughFn false
        = ((walkAndProcess fs ctx passThroughFn false).1, none) := by
      unfold Reify
      rw [hw1]
      dsimp only
      exact hw2
    have hself := walk_commit_self ctx hv fs _ hw2
    have hid := walk_id_of_self ctx passThroughFn _ hself
    have hR2 : Reify (walkAndProcess fs ctx passThroughFn false).1
          ctx passThroughFn false
        = ((walkAndProcess fs ctx passThroughFn false).1, none) := by
      unfold Reify
      rw [hid true]
      dsimp only
      exact hid false
    rw [hR]
    exact hR2
  · obtain ⟨e0, he0⟩ : ∃ e0,
        (walkAndProcess fs ctx passThroughFn true).2 = some e0 := by
      rcases h2 : (walkAndProcess fs ctx passThroughFn true).2 with _ | e0
      · exact absurd h2 hdry
      · exact ⟨e0, rfl⟩
    have hw1 : walkAndProcess fs ctx passThroughFn true
        = ((walkAndProcess fs ctx passThroughFn true).1, some e0) :=
      Prod.ext rfl he0
    have hR : Reify fs ctx passThroughFn false
        = (fs, some ("dry-run failed: " ++ e0)) := by
      unfold Reify
      rw [hw1]
    rw [hR]
    dsimp only
    exact hR


/-- C6 counterexample: a context value that itself contains a template
action is substituted on the first pass and expanded on the second, so the
second reification changes bytes. -/
theorem reify_twice_changes_counterexample :
    (Reify [("f", ⟨"\x7b\x7b .a \x7d\x7d", 420⟩)]
        [(["a"], "\x7b\x7b .b \x7d\x7d"), (["b"], "2")] passThroughFn false).1
      = [("f", ⟨"\x7b\x7b .b \x7d\x7d", 420⟩)]
  ∧ (Reify (Reify [("f", ⟨"\x7b\x7b .a \x7d\x7d", 420⟩)]
        [(["a"], "\x7b\x7b .b \x7d\x7d"), (["b"], "2")] passThroughFn false).1
      [(["a"], "\x7b\x7b .b \x7d\x7d"), (["b"], "2")] passThroughFn false).1
      = [("f", ⟨"2", 420⟩)]
  ∧ (Reify (Reify [("f", ⟨"\x7b\x7b .a \x7d\x7d", 420⟩)]
        [(["a"], "\x7b\x7b .b \x7d\x7d"), (["b"], "2")] passThroughFn false).1
      [(["a"], "\x7b\x7b .b \x7d\x7d"), (["b"], "2")] passThroughFn false).1
      ≠ (Reify [("f", ⟨"\x7b\x7b .a \x7d\x7d", 420⟩)]
        [(["a"], "\x7b\x7b .b \x7d\x7d"), (["b"], "2")] passThroughFn false).1 := by
  decide

/-- Witness for `reify_passthrough_idempotent` on a tree mixing literal
text, a context lookup and a secret placeholder. -/
theorem reify_passthrough_idempotent_witness :
    valsOK [(["k"], "v")] = true ∧
    Reify (Reify
        [("f", ⟨"a \x7b\x7b .k \x7d\x7d b \x7b\x7b \"S\" | secret \x7d\x7d", 420⟩)]
        [(["k"], "v")] passThroughFn false).1
        [(["k"], "v")] passThroughFn false
      = Reify
        [("f", ⟨"a \x7b\x7b .k \x7d\x7d b \x7b\x7b \"S\" | secret \x7d\x7d", 420⟩)]
        [(["k"], "v")] passThroughFn false :=
  ⟨by decide,
    reify_passthrough_idempotent
      [("f", ⟨"a \x7b\x7b .k \x7d\x7d b \x7b\x7b \"S\" | secret \x7d\x7d", 420⟩)]
      [(["k"], "v")] (by decide)⟩

end Scadufax
